import Mathlib

/-!
Verification development for the `selim` score follower.

This file gives a shallow embedding, in Lean 4, of the parts of the Rust
sources that the checked claims are about:

* the data model (`ScoreNote`, matches, the live buffer) from `score.rs`
  and `lib.rs`;
* the strict monophonic matcher `HomophonoPedantic`
  (`algo01_homophonopedantic.rs`);
* the pitch-indexed matcher `PolyphonoFlex` (`algo02_polyphonoflex.rs`);
* the playback scheduler `play_past_moments` / `play_next` (`playback.rs`,
  with the duplicated `play_next` of `main.rs`);
* MIDI re-encoding (`encode_midi_event` in `playback.rs`);
* channel-spec parsing (`Channels::from_str` in `score.rs`).

Modelling conventions:

* `std::time::Duration` values are modelled as rationals (`ℚ`), measured in
  milliseconds; they are non-negative in every reachable state.  Rust's
  panicking `Duration` subtraction is modelled by the partial `csub`, and a
  panic surfaces as `Except.error`, as do the `anyhow` errors and `bail!`
  calls of the source.  The nanosecond quantization that `Duration`
  arithmetic performs is abstracted away; none of the checked claims depends
  on sub-nanosecond distinctions.
* `f32` stretch factors are modelled by `F32`: an exact rational payload
  plus the IEEE special values `+inf` and `NaN` that arise from dividing by
  a zero elapsed-score time.  Rounding of `f32` arithmetic is abstracted to
  exact rational arithmetic; this does not affect the sign, finiteness or
  the exactly representable test values the claims are about (the elapsed
  times are bounded far below `f32` overflow, so finiteness is preserved
  exactly).
* `u7` / `u4` MIDI data are modelled as `ℕ` with explicit range hypotheses
  where a claim needs them.
* integer overflow checks use Rust's debug semantics: an underflowing `u8`
  subtraction is a panic, surfaced as a distinguished outcome.
-/

/-! ## Basic data model (`score.rs`, `lib.rs`) -/

/-- A note-on with a given pitch at a given timestamp in a score or in a live
performance (`ScoreNote` in `score.rs`); `time` in milliseconds. -/
structure ScoreNote where
  time : ℚ
  pitch : ℕ
  velocity : ℕ
deriving DecidableEq

/-- Model of an `f32` stretch-factor value: an exact rational, or the IEEE
special values produced by a zero denominator. -/
inductive F32 where
  | fin (q : ℚ)
  | inf
  | nan
deriving DecidableEq

/-- `true` exactly on the finite `f32` values of the model. -/
def F32.isFinite : F32 → Bool
  | .fin _ => true
  | _ => false

/-- Checked `Duration` subtraction: Rust's `Duration` subtraction panics when
the result would be negative. -/
def csub (a b : ℚ) : Option ℚ :=
  if b ≤ a then some (a - b) else none

/-- `absolute_time_difference` from `algo02_polyphonoflex.rs`. -/
def adiff (t1 t2 : ℚ) : ℚ :=
  if t2 < t1 then t1 - t2 else t2 - t1

/-- `get_stretch_factor` from `lib.rs`: the ratio between `elapsed_live` and
`elapsed_score`.  A zero denominator follows IEEE `f32` division of the
non-negative elapsed values: `x/0 = +inf` for `x > 0` and `0/0 = NaN`. -/
def get_stretch_factor (elapsed_score elapsed_live : ℚ) : F32 :=
  if elapsed_score = 0 then (if elapsed_live = 0 then .nan else .inf)
  else .fin (elapsed_live / elapsed_score)

/-- IEEE `f32` reciprocal `1.0 / k` on the modelled values. -/
def f32Recip : F32 → F32
  | .fin q => if q = 0 then .inf else .fin q⁻¹
  | .inf => .fin 0
  | .nan => .nan

/-- Modelled from the spec: the crate-root function `stretch` is referenced by
`playback.rs`, `main.rs` and `algo02_polyphonoflex.rs` but its definition is
not among the provided sources.  Per the spec it projects a duration through a
stretch factor by multiplication (`ts = 1.0 + stretch(1.0, 2.0) = 3.0
[seconds]`), i.e. `Duration::mul_f32`.  `Duration::mul_f32` panics when the
factor is not a finite value giving a representable non-negative duration;
those panics are `Except.error` here. -/
def stretchE (d : ℚ) (f : F32) : Except String ℚ :=
  match f with
  | .fin q => if 0 ≤ q then .ok (d * q) else .error "Duration multiply panic"
  | .inf => .error "Duration multiply panic"
  | .nan => .error "Duration multiply panic"

/-- `find_next_match_starting_at` from `lib.rs`: the next note with the given
`pitch`, at or after `score[index]`. -/
def find_next_match_starting_at (score : List ScoreNote) (index : ℕ) (pitch : ℕ) :
    Option ℕ :=
  ((score.drop index).findIdx? (fun note => note.pitch = pitch)).map
    (fun i => index + i)

/-! ## Strict matcher (`algo01_homophonopedantic.rs`) -/

/-- `MatchPerScore`: a match holding the global score index, the live index,
the stretch factor at the match, and the two captured velocities. -/
structure MatchPerScore where
  score_index : ℕ
  live_index : ℕ
  stretch_factor : F32
  score_velocity : ℕ
  live_velocity : ℕ
deriving DecidableEq

/-- The `HomophonoPedantic` follower state. -/
structure HomophonoPedantic where
  score : List ScoreNote
  live : List ScoreNote
  «matches» : List MatchPerScore
  ignored : List ℕ
deriving DecidableEq

/-- `HomophonoPedantic::new`. -/
def initHP (score : List ScoreNote) : HomophonoPedantic :=
  ⟨score, [], [], []⟩

/-- `HomophonoPedantic::get_stretch_factor_at_new_match`: the stretch factor
for a new match at score index `s` and live time `t`, relative to the last
committed match (`1.0` when there is none).  Out-of-range indices and
`Duration` underflows are the corresponding Rust panics. -/
def hpStretchAtNewMatch (score live : List ScoreNote) (lastM : Option MatchPerScore)
    (s : ℕ) (t : ℚ) : Except String F32 :=
  match lastM with
  | none => .ok (.fin 1)
  | some m =>
    match score[s]?, score[m.score_index]?, live[m.live_index]? with
    | some ns, some ps, some pl =>
      match csub ns.time ps.time, csub t pl.time with
      | some es, some el => .ok (get_stretch_factor es el)
      | _, _ => .error "overflow when subtracting durations"
    | _, _, _ => .error "index out of range"

/-- The loop body of `HomophonoPedantic::find_new_matches`, iterating over the
enumerated new live notes with the running score pointer.  `lastM` is the last
match committed before the call; it stays fixed for the whole batch, exactly
as `self.last_match()` does in the Rust loop. -/
def hpFindAux (score live : List ScoreNote) (lastM : Option MatchPerScore) :
    ℕ → List (ℕ × ScoreNote) → Except String (List MatchPerScore × List ℕ)
  | _, [] => .ok ([], [])
  | pointer, (i, note) :: rest =>
    match find_next_match_starting_at score pointer note.pitch with
    | some s =>
      match hpStretchAtNewMatch score live lastM s note.time with
      | .error e => .error e
      | .ok k =>
        match score[s]? with
        | none => .error "index out of range"
        | some sn =>
          match hpFindAux score live lastM (s + 1) rest with
          | .error e => .error e
          | .ok (ms, ig) => .ok (⟨s, i, k, sn.velocity, note.velocity⟩ :: ms, ig)
    | none =>
      match hpFindAux score live lastM pointer rest with
      | .error e => .error e
      | .ok (ms, ig) => .ok (ms, i :: ig)

/-- `HomophonoPedantic::find_new_matches`: scan the live notes from
`new_live_index` on, with the score pointer starting just after the last
committed match. -/
def hpFindNewMatches (st : HomophonoPedantic) (new_live_index : ℕ) :
    Except String (List MatchPerScore × List ℕ) :=
  hpFindAux st.score st.live st.matches.getLast?
    (match st.matches.getLast? with
     | some m => m.score_index + 1
     | none => 0)
    (st.live.enum.drop new_live_index)

/-- `HomophonoPedantic::follow_score`: append the new matches and ignored
indices to the state. -/
def hpFollowScore (st : HomophonoPedantic) (new_live_index : ℕ) :
    Except String HomophonoPedantic :=
  match hpFindNewMatches st new_live_index with
  | .error e => .error e
  | .ok (ms, ig) =>
    .ok { st with «matches» := st.matches ++ ms, ignored := st.ignored ++ ig }

/-- `ScoreFollower::push_live` repeated over a batch of notes. -/
def pushAllHP (st : HomophonoPedantic) (notes : List ScoreNote) : HomophonoPedantic :=
  { st with live := st.live ++ notes }

/-- A run of the strict follower under the protocol of `main.rs`: each batch
of newly arrived notes is pushed into the live buffer and then
`follow_score` is called with the index of the first new note. -/
def runHP (st : HomophonoPedantic) : List (List ScoreNote) → Except String HomophonoPedantic
  | [] => .ok st
  | batch :: rest =>
    match hpFollowScore (pushAllHP st batch) st.live.length with
    | .error e => .error e
    | .ok st2 => runHP st2 rest

/-! ## Pitch-indexed matcher (`algo02_polyphonoflex.rs`) -/

/-- `MatchPerPitch`: a match holding the offset within the per-pitch bucket,
the live index, the stretch factor, and the captured velocities. -/
structure MatchPerPitch where
  score_per_pitch_index : ℕ
  live_index : ℕ
  stretch_factor : F32
  score_velocity : ℕ
  live_velocity : ℕ
deriving DecidableEq

/-- `score_by_pitch` from `algo02_polyphonoflex.rs`, read off per pitch: the
ordered list of positions in the expectation score where `pitch` occurs. -/
def scoreByPitch (score : List ScoreNote) (pitch : ℕ) : List ℕ :=
  (List.range score.length).filter
    (fun i =>
      match score[i]? with
      | some note => note.pitch = pitch
      | none => False)

/-- The `PolyphonoFlex` follower state.  `matchOffsetsByPitch` is the 128-entry
per-pitch list of global match indices; `score_offsets_by_pitch` is read
through `scoreByPitch` (it is built once from the immutable score in Rust). -/
structure PolyphonoFlex where
  score : List ScoreNote
  live : List ScoreNote
  «matches» : List MatchPerPitch
  matchOffsetsByPitch : List (List ℕ)
  ignored : List ℕ
deriving DecidableEq

/-- `PolyphonoFlex::new`. -/
def initPF (score : List ScoreNote) : PolyphonoFlex :=
  ⟨score, [], [], List.replicate 128 [], []⟩

/-- `PolyphonoFlex::get_next_unmatched_offset_for_pitch`: one past the bucket
offset of the last committed match at this pitch, or `0` if the pitch has no
committed match.  An out-of-range stored match index is the Rust indexing
panic. -/
def pfNextUnmatchedOffset (st : PolyphonoFlex) (pitch : ℕ) : Except String ℕ :=
  match (st.matchOffsetsByPitch.getD pitch []).getLast? with
  | some mi =>
    match st.matches[mi]? with
    | some m => .ok (m.score_per_pitch_index + 1)
    | none => .error "index out of range"
  | none => .ok 0

/-- `PolyphonoFlex::live_time_mapped`: elapsed live time since the last
committed match, projected into score time through `1.0 / k`; `0` when no
match has been committed yet. -/
def pfLiveTimeMapped (st : PolyphonoFlex) (live_time : ℚ) : Except String ℚ :=
  match st.matches.getLast? with
  | none => .ok 0
  | some m =>
    match st.live[m.live_index]? with
    | none => .error "Match points beyond list of live events"
    | some pl =>
      match csub live_time pl.time with
      | none => .error "overflow when subtracting durations"
      | some d => stretchE d (f32Recip m.stretch_factor)

/-- The candidate scan of `PolyphonoFlex::find_new_match`: walk the bucket
suffix tracking the minimal `|score time − mapped live time|`, and stop at the
first candidate that does not improve on the minimum.  `minDiff` starts as
`Duration::from_secs(9999)` (in ms here) and `best` as `None`. -/
def scanBucket (score : List ScoreNote) : List ℕ → ℕ → ℚ → ℚ → Option ℕ →
    Except String (Option ℕ)
  | [], _, _, _, best => .ok best
  | s :: rest, pos, t, minDiff, best =>
    match score[s]? with
    | none => .error "index out of range"
    | some note =>
      if adiff note.time t < minDiff then
        scanBucket score rest (pos + 1) t (adiff note.time t) (some pos)
      else .ok best

/-- `PolyphonoFlex::get_stretch_factor_at_new_match`: stretch factor for a new
match on score note `ns` at live time `t`, relative to the last committed
match resolved through the per-pitch directory (`1.0` when there is none). -/
def pfStretchAtNewMatch (st : PolyphonoFlex) (ns : ScoreNote) (t : ℚ) :
    Except String F32 :=
  match st.matches.getLast? with
  | none => .ok (.fin 1)
  | some lm =>
    match st.live[lm.live_index]? with
    | none => .error "Match points beyond list of live events"
    | some pl =>
      match (scoreByPitch st.score pl.pitch)[lm.score_per_pitch_index]? with
      | none => .error "index out of range"
      | some psi =>
        match st.score[psi]? with
        | none => .error "index out of range"
        | some ps =>
          match csub ns.time ps.time, csub t pl.time with
          | some es, some el => .ok (get_stretch_factor es el)
          | _, _ => .error "overflow when subtracting durations"

/-- `PolyphonoFlex::find_new_match`: the best bucket candidate for one live
note, or `none` when the note is to be ignored. -/
def pfFindNewMatch (st : PolyphonoFlex) (pitch : ℕ) (live_index : ℕ)
    (live_time : ℚ) (live_velocity : ℕ) : Except String (Option MatchPerPitch) :=
  match pfNextUnmatchedOffset st pitch with
  | .error e => .error e
  | .ok base =>
    match pfLiveTimeMapped st live_time with
    | .error e => .error e
    | .ok tMapped =>
      match scanBucket st.score ((scoreByPitch st.score pitch).drop base) base
          tMapped 9999000 none with
      | .error e => .error e
      | .ok none => .ok none
      | .ok (some idx) =>
        match (scoreByPitch st.score pitch)[idx]? with
        | none => .error "index out of range"
        | some scoreIdx =>
          match st.score[scoreIdx]? with
          | none => .error "index out of range"
          | some sn =>
            match pfStretchAtNewMatch st sn live_time with
            | .error e => .error e
            | .ok k => .ok (some ⟨idx, live_index, k, sn.velocity, live_velocity⟩)

/-- The loop body of `PolyphonoFlex::find_new_matches`: process the enumerated
new live notes, collecting matches, ignored indices, and the
`(pitch, local match offset)` pairs; `mlen` counts the matches found so far in
this batch. -/
def pfFindAux (st : PolyphonoFlex) :
    List (ℕ × ScoreNote) → ℕ →
    Except String (List MatchPerPitch × List ℕ × List (ℕ × ℕ))
  | [], _ => .ok ([], [], [])
  | (i, note) :: rest, mlen =>
    match pfFindNewMatch st note.pitch i note.time note.velocity with
    | .error e => .error e
    | .ok (some m) =>
      match st.live[m.live_index]? with
      | none => .error "Match points beyond list of live events"
      | some ln =>
        match pfFindAux st rest (mlen + 1) with
        | .error e => .error e
        | .ok (ms, ig, pamo) => .ok (m :: ms, ig, (ln.pitch, mlen) :: pamo)
    | .ok none =>
      match pfFindAux st rest mlen with
      | .error e => .error e
      | .ok (ms, ig, pamo) => .ok (ms, i :: ig, pamo)

/-- The per-pitch registration loop of `PolyphonoFlex::follow_score`: push
`off + i` onto the pitch's match-offset list for each recorded pair. -/
def applyPamo (mobp : List (List ℕ)) (off : ℕ) : List (ℕ × ℕ) → List (List ℕ)
  | [] => mobp
  | (p, i) :: rest => applyPamo (mobp.set p (mobp.getD p [] ++ [off + i])) off rest

/-- `PolyphonoFlex::follow_score`. -/
def pfFollowScore (st : PolyphonoFlex) (new_live_index : ℕ) :
    Except String PolyphonoFlex :=
  match pfFindAux st (st.live.enum.drop new_live_index) 0 with
  | .error e => .error e
  | .ok (ms, ig, pamo) =>
    .ok { st with
          «matches» := st.matches ++ ms
          ignored := st.ignored ++ ig
          matchOffsetsByPitch := applyPamo st.matchOffsetsByPitch st.matches.length pamo }

/-- `ScoreFollower::push_live` repeated over a batch of notes. -/
def pushAllPF (st : PolyphonoFlex) (notes : List ScoreNote) : PolyphonoFlex :=
  { st with live := st.live ++ notes }

/-- A run of the flex follower under the protocol of `main.rs`. -/
def runPF (st : PolyphonoFlex) : List (List ScoreNote) → Except String PolyphonoFlex
  | [] => .ok st
  | batch :: rest =>
    match pfFollowScore (pushAllPF st batch) st.live.length with
    | .error e => .error e
    | .ok st2 => runPF st2 rest

/-! ## Playback (`playback.rs`, duplicated scheduler in `main.rs`) -/

/-- A structured MIDI channel message (`midly::MidiMessage`). -/
inductive MidiMessage where
  | noteOff (key vel : ℕ)
  | noteOn (key vel : ℕ)
  | aftertouch (key vel : ℕ)
  | controller (ctrl value : ℕ)
  | programChange (program : ℕ)
  | channelAftertouch (vel : ℕ)
  | pitchBend (bend : ℕ)
deriving DecidableEq

/-- A track event kind: a MIDI channel voice message, or any non-MIDI event
(meta, sysex), which the re-encoder passes over. -/
inductive TrackEventKind where
  | midi (channel : ℕ) (message : MidiMessage)
  | other
deriving DecidableEq

/-- `ScoreEvent` from `score.rs`: a timestamped MIDI event of the playback
score; `time` in milliseconds. -/
structure ScoreEvent where
  time : ℚ
  message : TrackEventKind
deriving DecidableEq

/-- The high nibble of the status byte of each channel voice message. -/
def MidiMessage.statusNibble : MidiMessage → ℕ
  | .noteOff _ _ => 8
  | .noteOn _ _ => 9
  | .aftertouch _ _ => 10
  | .controller _ _ => 11
  | .programChange _ => 12
  | .channelAftertouch _ => 13
  | .pitchBend _ => 14

/-- The data bytes of each channel voice message (pitch bend is 14 bits,
least-significant 7 bits first). -/
def MidiMessage.dataBytes : MidiMessage → List ℕ
  | .noteOff key vel => [key, vel]
  | .noteOn key vel => [key, vel]
  | .aftertouch key vel => [key, vel]
  | .controller ctrl value => [ctrl, value]
  | .programChange program => [program]
  | .channelAftertouch vel => [vel]
  | .pitchBend bend => [bend % 128, bend / 128]

/-- Wire serialization of a channel voice message (`nodi::MidiEvent::write`):
the status byte carries the message kind in the high nibble and the channel
in the low nibble, followed by the data bytes. -/
def midiBytes (channel : ℕ) (message : MidiMessage) : List ℕ :=
  (16 * message.statusNibble + channel) :: message.dataBytes

/-- `encode_midi_event` from `playback.rs`: re-encode one playback event to
wire bytes, substituting `velocity` into note-on messages with non-zero
velocity, keeping zero-velocity note-ons (note-offs) at velocity `0`, and
passing every other MIDI message through unchanged.  Non-MIDI events encode
to `none`. -/
def encode_midi_event (event : ScoreEvent) (velocity : ℕ) :
    Except String (Option (List ℕ)) :=
  match event.message with
  | .midi channel message =>
    let rme : MidiMessage :=
      match message with
      | .noteOn key 0 => .noteOn key 0
      | .noteOn key _ => .noteOn key velocity
      | m => m
    .ok (some (midiBytes channel rme))
  | .other => .ok none

/-- The emission loop of `play_past_moments`, over the events from the head
on: emit while the event time does not exceed the moment being played,
returning the encoded messages and the number of events consumed. -/
def playAux (velocity : ℕ) (moment_to_play : ℚ) :
    List ScoreEvent → Except String (List (List ℕ) × ℕ)
  | [] => .ok ([], 0)
  | e :: rest =>
    if e.time > moment_to_play then .ok ([], 0)
    else
      match encode_midi_event e velocity with
      | .error err => .error err
      | .ok md =>
        match playAux velocity moment_to_play rest with
        | .error err => .error err
        | .ok (buf, n) =>
          .ok ((match md with
                | some m => m :: buf
                | none => buf), n + 1)

/-- `play_past_moments` from `playback.rs`: if the moment at the head (the
score time of `score[head]`) is due, emit all events of that moment and
advance the head past them; otherwise leave the head alone.  Reading
`score[head]` with `head` out of range is the Rust indexing panic. -/
def play_past_moments (score : List ScoreEvent) (head : ℕ)
    (score_calculated_moment : ℚ) (velocity : ℕ) :
    Except String (List (List ℕ) × ℕ) :=
  match score[head]? with
  | none => .error "index out of range"
  | some headEvent =>
    if headEvent.time ≤ score_calculated_moment then
      match playAux velocity headEvent.time (score.drop head) with
      | .error e => .error e
      | .ok (buf, n) => .ok (buf, head + n)
    else .ok ([], head)

/-- `play_next` from `playback.rs`: map wall-clock `t` to an estimated score
time through the last match, emit what is due, and compute the next wait.
The guard `t < t_prev` fails with the `bail!` diagnostic. -/
def play_next (expect_score live : List ScoreNote) (playback_score : List ScoreEvent)
    (head : ℕ) («matches» : List MatchPerScore) (t delay : ℚ) :
    Except String (List (List ℕ) × ℕ × ℚ) :=
  if head ≥ playback_score.length then .ok ([], head, 3600000)
  else
    match «matches».getLast? with
    | none => .error "play_next() needs a non-empty list of matches"
    | some prev_match =>
      match live[prev_match.live_index]? with
      | none => .error "Match points beyond list of live events"
      | some live_note =>
        match expect_score[prev_match.score_index]? with
        | none => .error "Match points beyond list of score events"
        | some score_note =>
          let t_prev := live_note.time
          let ts_prev := score_note.time
          let k := prev_match.stretch_factor
          if t < t_prev then
            .error "Current time is earlier than the previous match"
          else
            match csub t t_prev with
            | none => .error "overflow when subtracting durations"
            | some dt =>
              match stretchE (dt + delay) (f32Recip k) with
              | .error e => .error e
              | .ok dts =>
                let ts := ts_prev + dts
                match play_past_moments playback_score head ts prev_match.live_velocity with
                | .error e => .error e
                | .ok (buf, new_head) =>
                  if new_head ≥ playback_score.length then .ok (buf, new_head, 1000)
                  else
                    match playback_score[new_head]? with
                    | none => .error "index out of range"
                    | some nextEvent =>
                      if nextEvent.time < ts then .ok (buf, new_head, 10)
                      else
                        match stretchE (nextEvent.time - ts) k with
                        | .error e => .error e
                        | .ok dt_next => .ok (buf, new_head, dt_next)

/-- The duplicated `play_next` of `main.rs`: identical to the `playback.rs`
scheduler except that the `t < t_prev` guard is absent, so a clock regression
hits the panicking `Duration` subtraction `t - t_prev` instead. -/
def mainPlayNext (expect_score live : List ScoreNote) (playback_score : List ScoreEvent)
    (head : ℕ) («matches» : List MatchPerScore) (t delay : ℚ) :
    Except String (List (List ℕ) × ℕ × ℚ) :=
  if head ≥ playback_score.length then .ok ([], head, 3600000)
  else
    match «matches».getLast? with
    | none => .error "play_next() needs a non-empty list of matches"
    | some prev_match =>
      match live[prev_match.live_index]? with
      | none => .error "Match points beyond list of live events"
      | some live_note =>
        match expect_score[prev_match.score_index]? with
        | none => .error "Match points beyond list of score events"
        | some score_note =>
          let t_prev := live_note.time
          let ts_prev := score_note.time
          let k := prev_match.stretch_factor
          match csub t t_prev with
          | none => .error "overflow when subtracting durations"
          | some dt =>
            match stretchE (dt + delay) (f32Recip k) with
            | .error e => .error e
            | .ok dts =>
              let ts := ts_prev + dts
              match play_past_moments playback_score head ts prev_match.live_velocity with
              | .error e => .error e
              | .ok (buf, new_head) =>
                if new_head ≥ playback_score.length then .ok (buf, new_head, 1000)
                else
                  match playback_score[new_head]? with
                  | none => .error "index out of range"
                  | some nextEvent =>
                    if nextEvent.time < ts then .ok (buf, new_head, 10)
                    else
                      match stretchE (nextEvent.time - ts) k with
                      | .error e => .error e
                      | .ok dt_next => .ok (buf, new_head, dt_next)

/-! ## Channel-spec parsing (`Channels::from_str` in `score.rs`)

Strings are modelled as `List Char`.  `char::is_whitespace` is restricted to
ASCII whitespace (the claims only exercise spaces).  The `format!` error
messages are abstracted to an error kind carrying the offending token; the
Rust `u8` subtraction `n - 1` uses debug semantics, so an underflow is the
distinguished `panic` outcome rather than an error value. -/

/-- ASCII whitespace, the fragment of `char::is_whitespace` the inputs use. -/
def isWs (c : Char) : Bool :=
  c = ' ' || c = '\t' || c = '\n' || c = '\r'

/-- `str::trim`. -/
def trimChars (s : List Char) : List Char :=
  ((s.dropWhile isWs).reverse.dropWhile isWs).reverse

/-- Digit test and value. -/
def digitVal (c : Char) : Option ℕ :=
  if '0' ≤ c ∧ c ≤ '9' then some (c.toNat - '0'.toNat) else none

/-- Parse a non-empty all-digit string into a number (no sign handling needed
beyond an optional leading `+`, as in Rust's unsigned `from_str`). -/
def parseDigits : List Char → Option ℕ → Option ℕ
  | [], acc => acc
  | c :: rest, acc =>
    match digitVal c with
    | some d => parseDigits rest (some ((acc.getD 0) * 10 + d))
    | none => none

/-- Rust `u8::from_str` (value fits in `u8`). -/
def parseU8 (s : List Char) : Option ℕ :=
  let body := match s with
    | '+' :: rest => rest
    | _ => s
  match parseDigits body none with
  | some n => if n ≤ 255 then some n else none
  | none => none

/-- Rust `usize::from_str` (64-bit bound). -/
def parseUsize (s : List Char) : Option ℕ :=
  let body := match s with
    | '+' :: rest => rest
    | _ => s
  match parseDigits body none with
  | some n => if n < 2 ^ 64 then some n else none
  | none => none

/-- `str::rsplitn(2, ':')`: the first component is everything after the last
colon (or the whole string when there is none); the second, when present, is
everything before that colon, colons included. -/
def rsplit2 (s : List Char) : List Char × Option (List Char) :=
  match (s.reverse.span (fun c => c ≠ ':')) with
  | (after, []) => (after.reverse, none)
  | (after, _ :: before) => (after.reverse, some before.reverse)

/-- The outcome of `Channels::from_str`: a parsed `(track, channels)` pair
(0-based), an error with its offending token, or the debug-mode arithmetic
panic of the unguarded `n - 1`. -/
inductive ChResult where
  | ok (track : ℕ) (midi_channels : List ℕ)
  | errInvalidChannel (tok : List Char)
  | errInvalidTrack (tok : List Char)
  | panic
deriving DecidableEq

/-- The channel-list fold of `Channels::from_str`: parse each comma-separated
token as a 1-based `u8` channel, subtract one (underflow for `0` is the
debug-mode panic), and require the result to fit in a `u4`.  `collect`
short-circuits at the first failure. -/
def parseChannels : List (List Char) → ChResult
  | [] => .ok 0 []
  | tok :: rest =>
    match parseU8 (trimChars tok) with
    | none => .errInvalidChannel tok
    | some 0 => .panic
    | some (n + 1) =>
      if n + 1 - 1 ≤ 15 then
        match parseChannels rest with
        | .ok t cs => .ok t (n :: cs)
        | r => r
      else .errInvalidChannel tok

/-- `Channels::from_str`.  The channel list is computed eagerly first (so its
panic precedes the track check), then the track prefix is validated; the `?`
operators surface the track error before the channel error, matching the
field order of the `Channels` struct expression. -/
def Channels.fromStr (s : List Char) : ChResult :=
  let (chanPart, trackPart) := rsplit2 s
  let chans := parseChannels (chanPart.splitOn ',')
  match chans with
  | .panic => .panic
  | _ =>
    let track : ChResult :=
      match trackPart with
      | none => .ok 1 []
      | some p =>
        match parseUsize (trimChars p) with
        | some 0 => .errInvalidTrack [ '0' ]
        | some n => .ok n []
        | none => .errInvalidTrack p
    match track with
    | .ok tn _ =>
      match chans with
      | .ok _ cs => .ok (tn - 1) cs
      | r => r
    | r => r

/-! ## Theorems -/

/-- Helper for C10: a channel token parsing to `0`, preceded only by valid
channel tokens, drives the channel-list fold into the underflow panic. -/
theorem parseChannels_zero_panic (pre : List (List Char)) (tok : List Char)
    (post : List (List Char))
    (hpre : ∀ tk ∈ pre, ∃ n, parseU8 (trimChars tk) = some (n + 1) ∧ n ≤ 15)
    (htok : parseU8 (trimChars tok) = some 0) :
    parseChannels (pre ++ tok :: post) = .panic := by
  induction pre with
  | nil => simp [parseChannels, htok]
  | cons tk pre ih =>
    obtain ⟨n, hn, hle⟩ := hpre tk (by simp)
    have ih2 := ih (fun tk2 h2 => hpre tk2 (by simp [h2]))
    simp [parseChannels, hn, hle, ih2]

/-- C9: `Channels::from_str` on the five specified inputs: `"16"` is track 0
with channels `{15}`; `"1:2,3"` is track 0 with channels `{1,2}`; `"0:1"` is
a track error; `" 7 : 1 , 15 "` is track 6 with channels `{0,14}`; `"1:17"`
is a channel error. -/
theorem channels_from_str_cases :
    Channels.fromStr ("16".toList) = .ok 0 [15] ∧
    Channels.fromStr ("1:2,3".toList) = .ok 0 [1, 2] ∧
    Channels.fromStr ("0:1".toList) = .errInvalidTrack ([ '0' ]) ∧
    Channels.fromStr (" 7 : 1 , 15 ".toList) = .ok 6 [0, 14] ∧
    Channels.fromStr ("1:17".toList) = .errInvalidChannel ("17".toList) := by
  refine ⟨by decide, by decide, by decide, by decide, by decide⟩

/-- C10: any channel-spec input whose channel list contains a token parsing to
the `u8` value `0`, preceded only by in-range channel tokens, reaches the
unguarded `u8` subtraction `n - 1` with `n = 0` and panics by underflow; this
outcome is distinct from the guarded `Invalid MIDI channel number` error that
out-of-range tokens such as `"17"` produce. -/
theorem channels_from_str_zero_underflows (s : List Char)
    (pre post : List (List Char)) (tok : List Char)
    (hsplit : ((rsplit2 s).1).splitOn ',' = pre ++ tok :: post)
    (hpre : ∀ tk ∈ pre, ∃ n, parseU8 (trimChars tk) = some (n + 1) ∧ n ≤ 15)
    (htok : parseU8 (trimChars tok) = some 0) :
    Channels.fromStr s = .panic ∧
      ∀ tk2, ChResult.panic ≠ ChResult.errInvalidChannel tk2 := by
  refine ⟨?_, fun tk2 h => by cases h⟩
  have hchan : parseChannels (((rsplit2 s).1).splitOn ',') = .panic := by
    rw [hsplit]; exact parseChannels_zero_panic pre tok post hpre htok
  unfold Channels.fromStr
  rcases h2 : rsplit2 s with ⟨cp, tp⟩
  rw [h2] at hchan
  simp only at hchan ⊢
  rw [hchan]

/-- Witness for C10 at the concrete input `"1:0"`. -/
theorem channels_from_str_zero_underflows_witness :
    Channels.fromStr ("1:0".toList) = .panic ∧
      ∀ tk2, ChResult.panic ≠ ChResult.errInvalidChannel tk2 :=
  channels_from_str_zero_underflows ("1:0".toList) [] [] ([ '0' ])
    (by decide) (by simp) (by decide)

/-- `true` exactly on the `Except.error` outcomes (a Rust `Err` or panic). -/
def isErrE {α : Type} : Except String α → Bool
  | .error _ => true
  | .ok _ => false

/-- C8: MIDI re-encoding: a note-on with non-zero velocity is serialized with
the given (latest live) velocity in place of its score velocity; a
zero-velocity note-on keeps velocity `0`; every other MIDI message is
serialized with channel, kind and data unchanged; non-MIDI events encode to
nothing. -/
theorem encode_midi_event_rewrites (t : ℚ) (ch key vel velocity : ℕ)
    (msg : MidiMessage) (hvel : vel ≠ 0) (hmsg : ∀ k v, msg ≠ .noteOn k v) :
    encode_midi_event ⟨t, .midi ch (.noteOn key vel)⟩ velocity =
      .ok (some [16 * 9 + ch, key, velocity]) ∧
    encode_midi_event ⟨t, .midi ch (.noteOn key 0)⟩ velocity =
      .ok (some [16 * 9 + ch, key, 0]) ∧
    encode_midi_event ⟨t, .midi ch msg⟩ velocity = .ok (some (midiBytes ch msg)) ∧
    encode_midi_event ⟨t, .other⟩ velocity = .ok none := by
  refine ⟨?_, rfl, ?_, rfl⟩
  · cases vel with
    | zero => exact absurd rfl hvel
    | succ v => rfl
  · cases msg with
    | noteOn k v => exact absurd rfl (hmsg k v)
    | noteOff k v => rfl
    | aftertouch k v => rfl
    | controller c v => rfl
    | programChange p => rfl
    | channelAftertouch v => rfl
    | pitchBend b => rfl

/-- Witness for C8 on channel 2: note-on key 69 velocity 80 re-encoded with
live velocity 99, the zero-velocity note-on, and a controller message. -/
theorem encode_midi_event_rewrites_witness :
    encode_midi_event ⟨0, .midi 2 (.noteOn 69 80)⟩ 99 = .ok (some [146, 69, 99]) ∧
    encode_midi_event ⟨0, .midi 2 (.noteOn 69 0)⟩ 99 = .ok (some [146, 69, 0]) ∧
    encode_midi_event ⟨0, .midi 2 (.controller 64 127)⟩ 99 =
      .ok (some [178, 64, 127]) ∧
    encode_midi_event ⟨0, .other⟩ 99 = .ok none := by
  have h := encode_midi_event_rewrites 0 2 69 80 99 (.controller 64 127)
    (by decide) (fun k v h => by cases h)
  refine ⟨h.1, h.2.1, ?_, h.2.2.2⟩
  exact h.2.2.1

/-- C7: a clock regression at the scheduler is fatal: when the current time
`t` precedes the wall-clock time of the last match's live note, the
`playback.rs` scheduler fails with its `bail!` diagnostic before emitting
anything, and the duplicated `main.rs` scheduler hits the panicking
`Duration` subtraction `t - t_prev`; in both cases no playback event is
emitted and no `dt` is produced. -/
theorem play_next_clock_regression (expect live : List ScoreNote)
    (pb : List ScoreEvent) (head : ℕ) (ms : List MatchPerScore) (t delay : ℚ)
    (m : MatchPerScore) (note : ScoreNote)
    (hhead : head < pb.length)
    (hlast : ms.getLast? = some m)
    (hlive : live[m.live_index]? = some note)
    (ht : t < note.time) :
    isErrE (play_next expect live pb head ms t delay) = true ∧
    isErrE (mainPlayNext expect live pb head ms t delay) = true := by
  have hnot : ¬ head ≥ pb.length := by omega
  have hcsub : csub t note.time = none := by
    simp [csub]
    linarith
  constructor
  · simp only [play_next, if_neg hnot, hlast, hlive]
    cases hs : expect[m.score_index]? with
    | none => rfl
    | some sn => simp only [hs, if_pos ht]; rfl
  · simp only [mainPlayNext, if_neg hnot, hlast, hlive]
    cases hs : expect[m.score_index]? with
    | none => rfl
    | some sn => simp only [hs, hcsub]; rfl

/-- Witness for C7: one match at `(score 0, live 0)`, the live note at
`t = 10000` ms, scheduler invoked at `t = 5000` ms. -/
theorem play_next_clock_regression_witness :
    isErrE (play_next [⟨1000, 60, 100⟩] [⟨10000, 60, 100⟩] [⟨1000, .other⟩] 0
      [⟨0, 0, .fin 1, 100, 100⟩] 5000 0) = true ∧
    isErrE (mainPlayNext [⟨1000, 60, 100⟩] [⟨10000, 60, 100⟩] [⟨1000, .other⟩] 0
      [⟨0, 0, .fin 1, 100, 100⟩] 5000 0) = true :=
  play_next_clock_regression [⟨1000, 60, 100⟩] [⟨10000, 60, 100⟩]
    [⟨1000, .other⟩] 0 [⟨0, 0, .fin 1, 100, 100⟩] 5000 0
    ⟨0, 0, .fin 1, 100, 100⟩ ⟨10000, 60, 100⟩
    (by decide) (by decide) (by decide) (by norm_num)

/-- C4: the tempo estimator: with a prior match, the stretch factor at a new
match is exactly the elapsed live time divided by the elapsed score time
between the two matches (`get_stretch_factor` is that quotient whenever the
score-time denominator is non-zero), and without a prior match it is `1.0`. -/
theorem stretch_factor_at_new_match_formula
    (score live : List ScoreNote) (m : MatchPerScore) (s : ℕ) (t : ℚ)
    (ns ps pl : ScoreNote)
    (hns : score[s]? = some ns) (hps : score[m.score_index]? = some ps)
    (hpl : live[m.live_index]? = some pl)
    (hmono : ps.time ≤ ns.time) (hlive : pl.time ≤ t)
    (hne : ps.time ≠ ns.time) :
    (∀ es el : ℚ, es ≠ 0 → get_stretch_factor es el = .fin (el / es)) ∧
    hpStretchAtNewMatch score live (some m) s t =
      .ok (.fin ((t - pl.time) / (ns.time - ps.time))) ∧
    hpStretchAtNewMatch score live none s t = .ok (.fin 1) := by
  refine ⟨fun es el hes => by simp [get_stretch_factor, hes], ?_, rfl⟩
  have hEs : csub ns.time ps.time = some (ns.time - ps.time) := by
    simp [csub, hmono]
  have hEl : csub t pl.time = some (t - pl.time) := by
    simp [csub, hlive]
  have hne2 : ns.time - ps.time ≠ 0 := by
    intro h
    exact hne (by linarith)
  simp [hpStretchAtNewMatch, hns, hps, hpl, hEs, hEl, get_stretch_factor, hne2]

/-- Witness for C4 on the three-note test score: prior match `(0,0)`, new
match at score index 1 and live time 55 ms gives `50/100 = 0.5`. -/
theorem stretch_factor_at_new_match_formula_witness :
    (∀ es el : ℚ, es ≠ 0 → get_stretch_factor es el = .fin (el / es)) ∧
    hpStretchAtNewMatch [⟨1000, 60, 100⟩, ⟨1100, 62, 100⟩, ⟨1200, 64, 100⟩]
      [⟨5, 60, 100⟩, ⟨55, 62, 100⟩] (some ⟨0, 0, .fin 1, 100, 100⟩) 1 55 =
      .ok (.fin ((55 - 5) / (1100 - 1000))) ∧
    hpStretchAtNewMatch [⟨1000, 60, 100⟩, ⟨1100, 62, 100⟩, ⟨1200, 64, 100⟩]
      [⟨5, 60, 100⟩, ⟨55, 62, 100⟩] none 1 55 = .ok (.fin 1) :=
  stretch_factor_at_new_match_formula
    [⟨1000, 60, 100⟩, ⟨1100, 62, 100⟩, ⟨1200, 64, 100⟩]
    [⟨5, 60, 100⟩, ⟨55, 62, 100⟩] ⟨0, 0, .fin 1, 100, 100⟩ 1 55
    ⟨1100, 62, 100⟩ ⟨1000, 60, 100⟩ ⟨5, 60, 100⟩
    (by decide) (by decide) (by decide) (by norm_num) (by norm_num) (by norm_num)

/-- C2: the strict matcher on the test score `[(1000,60),(1100,62),(1200,64)]`
with the prior match `(score 0, live 0, k = 1.0)`: processing the new live
notes `[(25,61),(55,62)]` yields exactly one new match
`(score 1, live 2, k = 0.5)` with ignored `[1]`, and processing the new live
note `[(55,64)]` yields exactly one new match `(score 2, live 1, k = 0.25)`
with an empty ignored list. -/
theorem follow_score_scenarios :
    hpFollowScore ⟨[⟨1000, 60, 100⟩, ⟨1100, 62, 100⟩, ⟨1200, 64, 100⟩],
        [⟨5, 60, 100⟩, ⟨25, 61, 100⟩, ⟨55, 62, 100⟩],
        [⟨0, 0, .fin 1, 100, 100⟩], []⟩ 1 =
      .ok ⟨[⟨1000, 60, 100⟩, ⟨1100, 62, 100⟩, ⟨1200, 64, 100⟩],
        [⟨5, 60, 100⟩, ⟨25, 61, 100⟩, ⟨55, 62, 100⟩],
        [⟨0, 0, .fin 1, 100, 100⟩, ⟨1, 2, .fin (1 / 2), 100, 100⟩], [1]⟩ ∧
    hpFollowScore ⟨[⟨1000, 60, 100⟩, ⟨1100, 62, 100⟩, ⟨1200, 64, 100⟩],
        [⟨5, 60, 100⟩, ⟨55, 64, 100⟩],
        [⟨0, 0, .fin 1, 100, 100⟩], []⟩ 1 =
      .ok ⟨[⟨1000, 60, 100⟩, ⟨1100, 62, 100⟩, ⟨1200, 64, 100⟩],
        [⟨5, 60, 100⟩, ⟨55, 64, 100⟩],
        [⟨0, 0, .fin 1, 100, 100⟩, ⟨2, 1, .fin (1 / 4), 100, 100⟩], []⟩ := by
  constructor
  · norm_num [hpFollowScore, hpFindNewMatches, hpFindAux, hpStretchAtNewMatch,
      csub, get_stretch_factor, find_next_match_starting_at, List.enum,
      List.enumFrom, List.findIdx?]
  · norm_num [hpFollowScore, hpFindNewMatches, hpFindAux, hpStretchAtNewMatch,
      csub, get_stretch_factor, find_next_match_starting_at, List.enum,
      List.enumFrom, List.findIdx?]

/-- The wire bytes (if any) that `encode_midi_event` produces for one event;
the encoder never fails on the modelled messages. -/
def encOk (vel : ℕ) (ev : ScoreEvent) : Option (List ℕ) :=
  match encode_midi_event ev vel with
  | .ok md => md
  | .error _ => none

/-- The messages emitted for the half-open event range `[a, b)` of the
playback score. -/
def encodedSlice (score : List ScoreEvent) (a b : ℕ) (vel : ℕ) : List (List ℕ) :=
  ((score.drop a).take (b - a)).filterMap (encOk vel)

/-- `encode_midi_event` always succeeds, returning `encOk`. -/
theorem encode_midi_event_ok (ev : ScoreEvent) (vel : ℕ) :
    encode_midi_event ev vel = .ok (encOk vel ev) := by
  rcases hev : ev.message with ⟨ch, msg⟩ | _ <;> simp [encode_midi_event, encOk, hev]

/-- Helper: the emission loop consumes exactly the leading run of events not
later than the moment being played, and emits their encodings. -/
theorem playAux_spec (vel : ℕ) (m : ℚ) :
    ∀ (l : List ScoreEvent) (buf : List (List ℕ)) (n : ℕ),
      playAux vel m l = .ok (buf, n) →
      n ≤ l.length ∧
      (∀ i ei, i < n → l[i]? = some ei → ei.time ≤ m) ∧
      (∀ en, l[n]? = some en → m < en.time) ∧
      buf = (l.take n).filterMap (encOk vel) ∧
      (∀ e0, l[0]? = some e0 → e0.time ≤ m → 1 ≤ n) := by
  intro l
  induction l with
  | nil =>
    intro buf n h
    simp [playAux] at h
    obtain ⟨h1, h2⟩ := h
    subst h1 h2
    simp
  | cons e rest ih =>
    intro buf n h
    by_cases he : e.time > m
    · rw [playAux, if_pos he] at h
      obtain ⟨h1, h2⟩ := by simpa using h
      subst h1 h2
      refine ⟨by simp, by simp, ?_, by simp, ?_⟩
      · intro en hen
        simp at hen
        subst hen
        exact he
      · intro e0 h0 hle
        simp at h0
        subst h0
        linarith
    · rw [playAux, if_neg he, encode_midi_event_ok] at h
      rcases h2 : playAux vel m rest with e2 | ⟨buf2, n2⟩
      · rw [h2] at h
        simp at h
      · rw [h2] at h
        obtain ⟨hb, hn⟩ : (match encOk vel e with
            | some mm => mm :: buf2
            | none => buf2) = buf ∧ n2 + 1 = n := by
          simpa using h
        replace hb := hb.symm
        replace hn := hn.symm
        obtain ⟨ihlen, ihle, ihgt, ihbuf, _⟩ := ih buf2 n2 h2
        subst hn
        refine ⟨by simpa using ihlen, ?_, ?_, ?_, fun _ _ _ => by omega⟩
        · intro i ei hi hei
          cases i with
          | zero =>
            simp at hei
            subst hei
            linarith
          | succ j =>
            simp at hei
            exact ihle j ei (by omega) hei
        · intro en hen
          simp at hen
          exact ihgt en hen
        · cases henc : encOk vel e <;>
            simp [henc, hb, ihbuf, List.take_succ_cons, List.filterMap_cons]

/-- C1 (amended): one scheduler call emits exactly the events of the earliest
pending moment — the maximal run of playback events sharing the score time of
`score[head]` — when that time is at most the estimated score time `ts`
(and nothing otherwise), advancing the head past exactly those events; events
of later moments, even if their score time is also at most `ts`, are left for
subsequent calls (reached via the 10 ms re-poll wait of `play_next`). -/
theorem play_past_moments_moment_only
    (score : List ScoreEvent) (head : ℕ) (ts : ℚ) (vel : ℕ)
    (buf : List (List ℕ)) (hd2 : ℕ) (e : ScoreEvent)
    (hsorted : List.Pairwise (fun a b => a.time ≤ b.time) score)
    (hhead : score[head]? = some e)
    (hrun : play_past_moments score head ts vel = .ok (buf, hd2)) :
    (e.time ≤ ts →
      head < hd2 ∧ hd2 ≤ score.length ∧
      (∀ i ei, head ≤ i → i < hd2 → score[i]? = some ei → ei.time = e.time) ∧
      (∀ en, score[hd2]? = some en → e.time < en.time) ∧
      buf = encodedSlice score head hd2 vel) ∧
    (¬ e.time ≤ ts → hd2 = head ∧ buf = []) := by
  simp only [play_past_moments, hhead] at hrun
  by_cases hle : e.time ≤ ts
  · rw [if_pos hle] at hrun
    refine ⟨fun _ => ?_, fun h => absurd hle h⟩
    rcases hp : playAux vel e.time (score.drop head) with er | ⟨b, n⟩
    · rw [hp] at hrun
      simp at hrun
    · rw [hp] at hrun
      obtain ⟨hb, hh⟩ : b = buf ∧ head + n = hd2 := by simpa using hrun
      subst hb
      obtain ⟨hlen, hle2, hgt, hbuf, hone⟩ := playAux_spec vel e.time
        (score.drop head) b n hp
      have hn1 : 1 ≤ n := by
        refine hone e ?_ le_rfl
        rw [List.getElem?_drop]
        simpa using hhead
      have hheadlt : head < score.length := by
        obtain ⟨hl, -⟩ := List.getElem?_eq_some.mp hhead
        exact hl
      rw [List.length_drop] at hlen
      refine ⟨by omega, by omega, ?_, ?_, ?_⟩
      · intro i ei hge hlt hei
        have h1 : ei.time ≤ e.time := by
          refine hle2 (i - head) ei (by omega) ?_
          rw [List.getElem?_drop]
          rw [show head + (i - head) = i by omega]
          exact hei
        have h2 : e.time ≤ ei.time := by
          rcases Nat.eq_or_lt_of_le hge with heq | hlt2
          · subst heq
            rw [hhead] at hei
            simp at hei
            subst hei
            rfl
          · obtain ⟨hil, hie⟩ := List.getElem?_eq_some.mp hei
            obtain ⟨hhl, hhe⟩ := List.getElem?_eq_some.mp hhead
            have := (List.pairwise_iff_getElem.mp hsorted) head i hhl hil hlt2
            rw [hhe, hie] at this
            exact this
        linarith
      · intro en hen
        refine hgt en ?_
        rw [List.getElem?_drop]
        rw [show head + n = hd2 from hh]
        exact hen
      · rw [hbuf, encodedSlice]
        congr 1
        rw [show hd2 - head = n by omega]
  · rw [if_neg hle] at hrun
    obtain ⟨h1, h2⟩ : ([] : List (List ℕ)) = buf ∧ head = hd2 := by simpa using hrun
    exact ⟨fun h => absurd h hle, fun _ => ⟨h2.symm, h1.symm⟩⟩

/-- Counterexample to C1 as stated: in the §8 scenario (prior match at
score time 1000 ms and live time 10000 ms with `k = 0.5`, playback score
`[(1000 ms, note-on A), (1500 ms, note-on B)]`, `t = 11000` ms, so the
estimated score time is `ts = 3000` ms), a single scheduler call emits only
the A event and advances the head only to 1, returning the 10 ms re-poll
wait — even though the B event's score time `1500 ≤ ts` as well. -/
theorem play_next_scenario_emits_one_moment :
    play_next [⟨1000, 60, 100⟩] [⟨10000, 69, 100⟩]
      [⟨1000, .midi 0 (.noteOn 69 80)⟩, ⟨1500, .midi 0 (.noteOn 71 80)⟩] 0
      [⟨0, 0, .fin (1 / 2), 100, 100⟩] 11000 0 =
      .ok ([[144, 69, 100]], 1, 10) ∧
    (([⟨1000, .midi 0 (.noteOn 69 80)⟩, ⟨1500, .midi 0 (.noteOn 71 80)⟩] :
        List ScoreEvent).getD 1 ⟨0, .other⟩).time ≤ 3000 := by
  constructor
  · norm_num [play_next, play_past_moments, playAux, encode_midi_event, csub,
      stretchE, f32Recip, midiBytes, MidiMessage.statusNibble,
      MidiMessage.dataBytes]
  · norm_num

/-- Witness for the amended C1 on the §8 playback score with `ts = 3000` ms:
the call emits exactly the A message, advances the head to 1, and every
emitted event carries the head moment's score time. -/
theorem play_past_moments_moment_only_witness :
    play_past_moments [⟨1000, .midi 0 (.noteOn 69 80)⟩,
        ⟨1500, .midi 0 (.noteOn 71 80)⟩] 0 3000 100 = .ok ([[144, 69, 100]], 1) ∧
    (0 : ℕ) < 1 ∧
    (∀ i ei, 0 ≤ i → i < 1 →
      ([⟨1000, .midi 0 (.noteOn 69 80)⟩, ⟨1500, .midi 0 (.noteOn 71 80)⟩] :
        List ScoreEvent)[i]? = some ei → ei.time = 1000) := by
  have hrun : play_past_moments [⟨1000, .midi 0 (.noteOn 69 80)⟩,
      ⟨1500, .midi 0 (.noteOn 71 80)⟩] 0 3000 100 = .ok ([[144, 69, 100]], 1) := by
    norm_num [play_past_moments, playAux, encode_midi_event, midiBytes,
      MidiMessage.statusNibble, MidiMessage.dataBytes]
  have h := play_past_moments_moment_only
    [⟨1000, .midi 0 (.noteOn 69 80)⟩, ⟨1500, .midi 0 (.noteOn 71 80)⟩]
    0 3000 100 [[144, 69, 100]] 1 ⟨1000, .midi 0 (.noteOn 69 80)⟩
    (by norm_num) (by norm_num) hrun
  obtain ⟨h1, -, h3, -, -⟩ := h.1 (by norm_num)
  exact ⟨hrun, h1, fun i ei h0 hi hei => h3 i ei h0 hi hei⟩

/-- Helper: each processed live note contributes its index to exactly one of
the new matches and the ignored list (strict matcher batch loop). -/
theorem hpFindAux_perm (score live : List ScoreNote) (lastM : Option MatchPerScore) :
    ∀ (pairs : List (ℕ × ScoreNote)) (ptr : ℕ) (ms : List MatchPerScore) (ig : List ℕ),
      hpFindAux score live lastM ptr pairs = .ok (ms, ig) →
      ((ms.map (fun m => m.live_index)) ++ ig).Perm (pairs.map Prod.fst) := by
  intro pairs
  induction pairs with
  | nil =>
    intro ptr ms ig h
    obtain ⟨h1, h2⟩ : ([] : List MatchPerScore) = ms ∧ ([] : List ℕ) = ig := by
      simpa [hpFindAux] using h
    subst h1
    subst h2
    simp
  | cons p rest ih =>
    intro ptr ms ig h
    obtain ⟨i, note⟩ := p
    rw [hpFindAux] at h
    split at h
    next s hf =>
      split at h
      next ek hk => simp at h
      next k hk =>
        split at h
        next hsn => simp at h
        next sn hsn =>
          split at h
          next er hr => simp at h
          next ms2 ig2 hr =>
            obtain ⟨h1, h2⟩ :
                (⟨s, i, k, sn.velocity, note.velocity⟩ : MatchPerScore) :: ms2 = ms ∧
                  ig2 = ig := by simpa using h
            subst h1
            subst h2
            simpa using (ih (s + 1) ms2 ig2 hr).cons i
    next hf =>
      split at h
      next er hr => simp at h
      next ms2 ig2 hr =>
        obtain ⟨h1, h2⟩ : ms2 = ms ∧ i :: ig2 = ig := by simpa using h
        subst h1
        subst h2
        refine List.Perm.trans List.perm_middle ?_
        simpa using (ih ptr ms2 ig2 hr).cons i

/-- Helper: a match produced by `find_new_match` records the live index it was
asked about. -/
theorem pfFindNewMatch_liveIndex (st : PolyphonoFlex) (p i : ℕ) (t : ℚ) (v : ℕ)
    (m : MatchPerPitch) (h : pfFindNewMatch st p i t v = .ok (some m)) :
    m.live_index = i := by
  rw [pfFindNewMatch] at h
  split at h
  next => simp at h
  next base hbase =>
    split at h
    next => simp at h
    next tm htm =>
      split at h
      next => simp at h
      next hscan => simp at h
      next idx hscan =>
        split at h
        next => simp at h
        next si hsi =>
          split at h
          next => simp at h
          next sn hsn =>
            split at h
            next => simp at h
            next k hk =>
              obtain h2 : (⟨idx, i, k, sn.velocity, v⟩ : MatchPerPitch) = m := by
                simpa using h
              rw [← h2]

/-- Helper: each processed live note contributes its index to exactly one of
the new matches and the ignored list (flex matcher batch loop). -/
theorem pfFindAux_perm (st : PolyphonoFlex) :
    ∀ (pairs : List (ℕ × ScoreNote)) (mlen : ℕ) (ms : List MatchPerPitch)
      (ig : List ℕ) (pamo : List (ℕ × ℕ)),
      pfFindAux st pairs mlen = .ok (ms, ig, pamo) →
      ((ms.map (fun m => m.live_index)) ++ ig).Perm (pairs.map Prod.fst) := by
  intro pairs
  induction pairs with
  | nil =>
    intro mlen ms ig pamo h
    obtain ⟨h1, h2, h3⟩ : ([] : List MatchPerPitch) = ms ∧ ([] : List ℕ) = ig ∧
        ([] : List (ℕ × ℕ)) = pamo := by simpa [pfFindAux] using h
    subst h1
    subst h2
    simp
  | cons p rest ih =>
    intro mlen ms ig pamo h
    obtain ⟨i, note⟩ := p
    rw [pfFindAux] at h
    split at h
    next e he => simp at h
    next m hm =>
      split at h
      next => simp at h
      next ln hln =>
        split at h
        next => simp at h
        next ms2 ig2 pamo2 hr =>
          obtain ⟨h1, h2, h3⟩ : m :: ms2 = ms ∧ ig2 = ig ∧
              (ln.pitch, mlen) :: pamo2 = pamo := by simpa using h
          subst h1
          subst h2
          have hmi := pfFindNewMatch_liveIndex st note.pitch i note.time
            note.velocity m hm
          simp only [List.map_cons, hmi, List.cons_append]
          exact (ih (mlen + 1) ms2 ig2 pamo2 hr).cons i
    next hm =>
      split at h
      next => simp at h
      next ms2 ig2 pamo2 hr =>
        obtain ⟨h1, h2, h3⟩ : ms2 = ms ∧ i :: ig2 = ig ∧ pamo2 = pamo := by
          simpa using h
        subst h1
        subst h2
        refine List.Perm.trans List.perm_middle ?_
        simpa using (ih mlen ms2 ig2 pamo2 hr).cons i



/-- Helper: the indices of the enumerated live suffix processed by a batch. -/
theorem enum_drop_map_fst (l : List ScoreNote) (n : ℕ) :
    ((l.enum.drop n).map Prod.fst) = (List.range l.length).drop n := by
  rw [List.map_drop, List.enum_map_fst]

/-- Helper: exchanging the middle two blocks of a four-block concatenation is
a permutation. -/
theorem perm_append_swap (a b c d : List ℕ) :
    ((a ++ b) ++ (c ++ d)).Perm ((a ++ c) ++ (b ++ d)) := by
  have h1 : (b ++ (c ++ d)).Perm (c ++ (b ++ d)) := by
    rw [← List.append_assoc, ← List.append_assoc]
    exact (List.perm_append_comm).append_right d
  have e1 : (a ++ b) ++ (c ++ d) = a ++ (b ++ (c ++ d)) := by
    rw [List.append_assoc]
  have e2 : a ++ (c ++ (b ++ d)) = (a ++ c) ++ (b ++ d) := by
    rw [List.append_assoc]
  rw [e1, ← e2]
  exact h1.append_left a

/-- The partition invariant of the strict follower: matched and ignored live
indices together enumerate the live buffer exactly once. -/
def livePartHP (st : HomophonoPedantic) : Prop :=
  ((st.matches.map (fun m => m.live_index)) ++ st.ignored).Perm
    (List.range st.live.length)

/-- The partition invariant of the flex follower. -/
def livePartPF (st : PolyphonoFlex) : Prop :=
  ((st.matches.map (fun m => m.live_index)) ++ st.ignored).Perm
    (List.range st.live.length)

/-- Helper: `range n` extends by the dropped tail of a longer range. -/
theorem range_take_drop (n L : ℕ) (h : n ≤ L) :
    List.range n ++ (List.range L).drop n = List.range L := by
  have ht : (List.range L).take n = List.range n := by
    rw [List.take_range]
    congr 1
    omega
  rw [← ht, List.take_append_drop]

/-- Helper: every strict-follower run preserves the partition invariant. -/
theorem runHP_partition :
    ∀ (batches : List (List ScoreNote)) (st st2 : HomophonoPedantic),
      livePartHP st → runHP st batches = .ok st2 → livePartHP st2 := by
  intro batches
  induction batches with
  | nil =>
    intro st st2 hinv h
    obtain h2 : st = st2 := by simpa [runHP] using h
    rwa [← h2]
  | cons batch rest ih =>
    intro st st2 hinv h
    rw [runHP] at h
    split at h
    next => simp at h
    next stm hstep =>
      refine ih stm st2 ?_ h
      rw [hpFollowScore] at hstep
      split at hstep
      next => simp at hstep
      next ms ig hfind =>
        obtain h3 : { pushAllHP st batch with
            «matches» := (pushAllHP st batch).matches ++ ms,
            ignored := (pushAllHP st batch).ignored ++ ig } = stm := by
          simpa using hstep
        have hperm := hpFindAux_perm (pushAllHP st batch).score
          (pushAllHP st batch).live (pushAllHP st batch).matches.getLast? _ _ _ _ hfind
        rw [← h3]
        unfold livePartHP
        simp only [pushAllHP] at *
        rw [enum_drop_map_fst] at hperm
        have hlen : st.live.length ≤ (st.live ++ batch).length := by simp
        refine List.Perm.trans ?_
          (by rw [← range_take_drop st.live.length (st.live ++ batch).length hlen])
        have := (hinv.append hperm).trans
          (List.Perm.refl (List.range st.live.length ++
            (List.range (st.live ++ batch).length).drop st.live.length))
        refine List.Perm.trans ?_ this
        simp only [List.map_append]
        exact perm_append_swap _ _ _ _

/-- Helper: every flex-follower run preserves the partition invariant. -/
theorem runPF_partition :
    ∀ (batches : List (List ScoreNote)) (st st2 : PolyphonoFlex),
      livePartPF st → runPF st batches = .ok st2 → livePartPF st2 := by
  intro batches
  induction batches with
  | nil =>
    intro st st2 hinv h
    obtain h2 : st = st2 := by simpa [runPF] using h
    rwa [← h2]
  | cons batch rest ih =>
    intro st st2 hinv h
    rw [runPF] at h
    split at h
    next => simp at h
    next stm hstep =>
      refine ih stm st2 ?_ h
      rw [pfFollowScore] at hstep
      split at hstep
      next => simp at hstep
      next ms ig pamo hfind =>
        obtain h3 : { pushAllPF st batch with
            «matches» := (pushAllPF st batch).matches ++ ms,
            ignored := (pushAllPF st batch).ignored ++ ig,
            matchOffsetsByPitch := applyPamo (pushAllPF st batch).matchOffsetsByPitch
              (pushAllPF st batch).matches.length pamo } = stm := by
          simpa using hstep
        have hperm := pfFindAux_perm (pushAllPF st batch) _ _ _ _ _ hfind
        rw [← h3]
        unfold livePartPF
        simp only [pushAllPF] at *
        rw [enum_drop_map_fst] at hperm
        have hlen : st.live.length ≤ (st.live ++ batch).length := by simp
        refine List.Perm.trans ?_
          (by rw [← range_take_drop st.live.length (st.live ++ batch).length hlen])
        have := (hinv.append hperm).trans
          (List.Perm.refl (List.range st.live.length ++
            (List.range (st.live ++ batch).length).drop st.live.length))
        refine List.Perm.trans ?_ this
        simp only [List.map_append]
        exact perm_append_swap _ _ _ _

/-- C6: after any completed run of either matcher — each matcher taken on
its own — every live buffer index appears in exactly one of the match list
(as a `live_index`) or the ignored list: the concatenation is a permutation
of `range |live|`, so in particular `|matches| + |ignored| = |live|` and the
used indices form a gapless, non-overlapping cover of the live buffer's
index set. -/
theorem live_indices_partition
    (score : List ScoreNote) (batches : List (List ScoreNote)) :
    (∀ stH, runHP (initHP score) batches = .ok stH →
      stH.matches.length + stH.ignored.length = stH.live.length ∧
      ((stH.matches.map (fun m => m.live_index)) ++ stH.ignored).Perm
        (List.range stH.live.length)) ∧
    (∀ stP, runPF (initPF score) batches = .ok stP →
      stP.matches.length + stP.ignored.length = stP.live.length ∧
      ((stP.matches.map (fun m => m.live_index)) ++ stP.ignored).Perm
        (List.range stP.live.length)) := by
  constructor
  · intro stH hH
    have hHp : livePartHP stH :=
      runHP_partition batches (initHP score) stH (by simp [initHP, livePartHP]) hH
    have hHl := hHp.length_eq
    simp only [List.length_append, List.length_map, List.length_range] at hHl
    exact ⟨hHl, hHp⟩
  · intro stP hP
    have hPp : livePartPF stP :=
      runPF_partition batches (initPF score) stP (by simp [initPF, livePartPF]) hP
    have hPl := hPp.length_eq
    simp only [List.length_append, List.length_map, List.length_range] at hPl
    exact ⟨hPl, hPp⟩

/-- Witness for C6: the one-note run of both matchers. -/
theorem live_indices_partition_witness :
    runHP (initHP [⟨1000, 60, 100⟩]) [[⟨5, 60, 100⟩]] =
      .ok ⟨[⟨1000, 60, 100⟩], [⟨5, 60, 100⟩], [⟨0, 0, .fin 1, 100, 100⟩], []⟩ ∧
    runPF (initPF [⟨1000, 60, 100⟩]) [[⟨5, 60, 100⟩]] =
      .ok ⟨[⟨1000, 60, 100⟩], [⟨5, 60, 100⟩], [⟨0, 0, .fin 1, 100, 100⟩],
        (List.replicate 128 []).set 60 [0], []⟩ ∧
    (1 : ℕ) + 0 = 1 ∧ ([0] ++ ([] : List ℕ)).Perm (List.range 1) := by
  have h1 : runHP (initHP [⟨1000, 60, 100⟩]) [[⟨5, 60, 100⟩]] =
      .ok ⟨[⟨1000, 60, 100⟩], [⟨5, 60, 100⟩], [⟨0, 0, .fin 1, 100, 100⟩], []⟩ := by
    norm_num [runHP, initHP, pushAllHP, hpFollowScore, hpFindNewMatches, hpFindAux,
      hpStretchAtNewMatch, csub, get_stretch_factor, find_next_match_starting_at,
      List.enum, List.enumFrom, List.findIdx?]
  have h2 : runPF (initPF [⟨1000, 60, 100⟩]) [[⟨5, 60, 100⟩]] =
      .ok ⟨[⟨1000, 60, 100⟩], [⟨5, 60, 100⟩], [⟨0, 0, .fin 1, 100, 100⟩],
        (List.replicate 128 []).set 60 [0], []⟩ := by
    norm_num [runPF, initPF, pushAllPF, pfFollowScore, pfFindAux, pfFindNewMatch,
      pfNextUnmatchedOffset, pfLiveTimeMapped, pfStretchAtNewMatch, scanBucket,
      scoreByPitch, applyPamo, csub, get_stretch_factor, f32Recip, stretchE, adiff,
      List.enum, List.enumFrom, List.range, List.range.loop, List.filter]
  have h := live_indices_partition [⟨1000, 60, 100⟩] [[⟨5, 60, 100⟩]]
  exact ⟨h1, h2, by simp, by simpa using (h.1 _ h1).2⟩

/-- A stretch-factor value that is strictly positive, allowing the IEEE
`+inf` produced by a zero score-time denominator. -/
def posOrInf (f : F32) : Prop :=
  f = .inf ∨ ∃ q : ℚ, f = .fin q ∧ 0 < q

/-- Helper: a successful checked subtraction is an in-range subtraction. -/
theorem csub_some (a b c : ℚ) (h : csub a b = some c) : b ≤ a ∧ c = a - b := by
  rw [csub] at h
  split at h
  next hle => exact ⟨hle, by simpa using h.symm⟩
  next => simp at h

/-- Helper: `get_stretch_factor` of a non-negative denominator and positive
numerator is positive or `+inf`. -/
theorem get_stretch_factor_posOrInf (es el : ℚ) (hes : 0 ≤ es) (hel : 0 < el) :
    posOrInf (get_stretch_factor es el) := by
  rw [get_stretch_factor]
  split
  next h0 =>
    rw [if_neg (by linarith)]
    exact Or.inl rfl
  next h0 =>
    exact Or.inr ⟨el / es, rfl, div_pos hel (lt_of_le_of_ne hes (Ne.symm h0))⟩

/-- Helper: every stretch factor the strict matcher computes is positive or
`+inf` provided the live clock advanced since the reference match. -/
theorem hpStretch_posOrInf (score live : List ScoreNote)
    (lastM : Option MatchPerScore) (s : ℕ) (t : ℚ) (k : F32)
    (hok : hpStretchAtNewMatch score live lastM s t = .ok k)
    (hlt : ∀ lm, lastM = some lm → ∀ pl, live[lm.live_index]? = some pl →
      pl.time < t) :
    posOrInf k := by
  cases lastM with
  | none =>
    obtain hk : F32.fin 1 = k := by simpa [hpStretchAtNewMatch] using hok
    exact Or.inr ⟨1, hk.symm, one_pos⟩
  | some lm =>
    rw [hpStretchAtNewMatch] at hok
    split at hok
    next ns ps pl hns hps hpl =>
      split at hok
      next es el hes hel =>
        obtain hk : get_stretch_factor es el = k := by simpa using hok
        obtain ⟨hes1, hes2⟩ := csub_some _ _ _ hes
        obtain ⟨hel1, hel2⟩ := csub_some _ _ _ hel
        rw [← hk]
        refine get_stretch_factor_posOrInf es el (by linarith) ?_
        have := hlt lm rfl pl hpl
        linarith
      next => simp at hok
    next => simp at hok

/-- Helper: every stretch factor the flex matcher computes is positive or
`+inf` provided the live clock advanced since the reference match. -/
theorem pfStretch_posOrInf (st : PolyphonoFlex) (sn : ScoreNote) (t : ℚ) (k : F32)
    (hok : pfStretchAtNewMatch st sn t = .ok k)
    (hlt : ∀ lm, st.matches.getLast? = some lm →
      ∀ pl, st.live[lm.live_index]? = some pl → pl.time < t) :
    posOrInf k := by
  rw [pfStretchAtNewMatch] at hok
  split at hok
  next hnone =>
    obtain hk : F32.fin 1 = k := by simpa using hok
    exact Or.inr ⟨1, hk.symm, one_pos⟩
  next lm hlm =>
    split at hok
    next => simp at hok
    next pl hpl =>
      split at hok
      next => simp at hok
      next psi hpsi =>
        split at hok
        next => simp at hok
        next ps hps =>
          split at hok
          next es el hes hel =>
            obtain hk : get_stretch_factor es el = k := by simpa using hok
            obtain ⟨hes1, hes2⟩ := csub_some _ _ _ hes
            obtain ⟨hel1, hel2⟩ := csub_some _ _ _ hel
            rw [← hk]
            refine get_stretch_factor_posOrInf es el (by linarith) ?_
            have := hlt lm hlm pl hpl
            linarith
          next => simp at hok

/-- Helper: with no committed match the flex estimator returns `1.0`. -/
theorem pfStretch_one (st : PolyphonoFlex) (sn : ScoreNote) (t : ℚ) (k : F32)
    (hnone : st.matches.getLast? = none)
    (hok : pfStretchAtNewMatch st sn t = .ok k) : k = .fin 1 := by
  rw [pfStretchAtNewMatch, hnone] at hok
  simpa using hok.symm

/-- Helper: factor facts for a single new flex match. -/
theorem pfFindNewMatch_factor (st : PolyphonoFlex) (p i : ℕ) (t : ℚ) (v : ℕ)
    (m : MatchPerPitch) (h : pfFindNewMatch st p i t v = .ok (some m))
    (hlt : ∀ lm, st.matches.getLast? = some lm →
      ∀ pl, st.live[lm.live_index]? = some pl → pl.time < t) :
    posOrInf m.stretch_factor ∧
      (st.matches.getLast? = none → m.stretch_factor = .fin 1) := by
  rw [pfFindNewMatch] at h
  split at h
  next => simp at h
  next base hbase =>
    split at h
    next => simp at h
    next tm htm =>
      split at h
      next => simp at h
      next hscan => simp at h
      next idx hscan =>
        split at h
        next => simp at h
        next si hsi =>
          split at h
          next => simp at h
          next sn hsn =>
            split at h
            next => simp at h
            next k hk =>
              obtain h2 : (⟨idx, i, k, sn.velocity, v⟩ : MatchPerPitch) = m := by
                simpa using h
              rw [← h2]
              exact ⟨pfStretch_posOrInf st sn t k hk hlt,
                fun hn => pfStretch_one st sn t k hn hk⟩

/-- Helper: factor and live-index facts for one strict-matcher batch. -/
theorem hpFindAux_facts (score live : List ScoreNote) (lastM : Option MatchPerScore) :
    ∀ (pairs : List (ℕ × ScoreNote)) (ptr : ℕ) (ms : List MatchPerScore) (ig : List ℕ),
      hpFindAux score live lastM ptr pairs = .ok (ms, ig) →
      (∀ pr ∈ pairs, ∀ lm, lastM = some lm → ∀ pl, live[lm.live_index]? = some pl →
        pl.time < pr.2.time) →
      (∀ m ∈ ms, posOrInf m.stretch_factor) ∧
      (lastM = none → ∀ m ∈ ms, m.stretch_factor = .fin 1) ∧
      (∀ m ∈ ms, ∃ pr ∈ pairs, m.live_index = pr.1) := by
  intro pairs
  induction pairs with
  | nil =>
    intro ptr ms ig h hpairs
    obtain ⟨h1, h2⟩ : ([] : List MatchPerScore) = ms ∧ ([] : List ℕ) = ig := by
      simpa [hpFindAux] using h
    subst h1
    simp
  | cons p rest ih =>
    intro ptr ms ig h hpairs
    obtain ⟨i, note⟩ := p
    rw [hpFindAux] at h
    split at h
    next s hf =>
      split at h
      next ek hk => simp at h
      next k hk =>
        split at h
        next hsn => simp at h
        next sn hsn =>
          split at h
          next er hr => simp at h
          next ms2 ig2 hr =>
            obtain ⟨h1, h2⟩ :
                (⟨s, i, k, sn.velocity, note.velocity⟩ : MatchPerScore) :: ms2 = ms ∧
                  ig2 = ig := by simpa using h
            subst h1
            subst h2
            have hrest := ih (s + 1) ms2 ig2 hr
              (fun pr hpr => hpairs pr (List.mem_cons_of_mem _ hpr))
            have hk1 : posOrInf k := hpStretch_posOrInf score live lastM s note.time k hk
              (fun lm hlm pl hpl => hpairs (i, note) (List.mem_cons_self _ _) lm hlm pl hpl)
            refine ⟨?_, ?_, ?_⟩
            · intro m hm
              rcases List.mem_cons.mp hm with hm0 | hm2
              · rw [hm0]
                exact hk1
              · exact hrest.1 m hm2
            · intro hn m hm
              rcases List.mem_cons.mp hm with hm0 | hm2
              · subst hn
                obtain hk2 : F32.fin 1 = k := by simpa [hpStretchAtNewMatch] using hk
                rw [hm0]
                exact hk2.symm
              · exact hrest.2.1 hn m hm2
            · intro m hm
              rcases List.mem_cons.mp hm with hm0 | hm2
              · exact ⟨(i, note), List.mem_cons_self _ _, by rw [hm0]⟩
              · obtain ⟨pr, hpr, hpr2⟩ := hrest.2.2 m hm2
                exact ⟨pr, List.mem_cons_of_mem _ hpr, hpr2⟩
    next hf =>
      split at h
      next er hr => simp at h
      next ms2 ig2 hr =>
        obtain ⟨h1, h2⟩ : ms2 = ms ∧ i :: ig2 = ig := by simpa using h
        subst h1
        have hrest := ih ptr ms2 ig2 hr
          (fun pr hpr => hpairs pr (List.mem_cons_of_mem _ hpr))
        refine ⟨hrest.1, hrest.2.1, ?_⟩
        intro m hm
        obtain ⟨pr, hpr, hpr2⟩ := hrest.2.2 m hm
        exact ⟨pr, List.mem_cons_of_mem _ hpr, hpr2⟩

/-- Helper: factor and live-index facts for one flex-matcher batch. -/
theorem pfFindAux_facts (st : PolyphonoFlex) :
    ∀ (pairs : List (ℕ × ScoreNote)) (mlen : ℕ) (ms : List MatchPerPitch)
      (ig : List ℕ) (pamo : List (ℕ × ℕ)),
      pfFindAux st pairs mlen = .ok (ms, ig, pamo) →
      (∀ pr ∈ pairs, ∀ lm, st.matches.getLast? = some lm →
        ∀ pl, st.live[lm.live_index]? = some pl → pl.time < pr.2.time) →
      (∀ m ∈ ms, posOrInf m.stretch_factor) ∧
      (st.matches.getLast? = none → ∀ m ∈ ms, m.stretch_factor = .fin 1) ∧
      (∀ m ∈ ms, ∃ pr ∈ pairs, m.live_index = pr.1) := by
  intro pairs
  induction pairs with
  | nil =>
    intro mlen ms ig pamo h hpairs
    obtain ⟨h1, h2, h3⟩ : ([] : List MatchPerPitch) = ms ∧ ([] : List ℕ) = ig ∧
        ([] : List (ℕ × ℕ)) = pamo := by simpa [pfFindAux] using h
    subst h1
    simp
  | cons p rest ih =>
    intro mlen ms ig pamo h hpairs
    obtain ⟨i, note⟩ := p
    rw [pfFindAux] at h
    split at h
    next e he => simp at h
    next m hm =>
      split at h
      next => simp at h
      next ln hln =>
        split at h
        next => simp at h
        next ms2 ig2 pamo2 hr =>
          obtain ⟨h1, h2, h3⟩ : m :: ms2 = ms ∧ ig2 = ig ∧
              (ln.pitch, mlen) :: pamo2 = pamo := by simpa using h
          subst h1
          have hrest := ih (mlen + 1) ms2 ig2 pamo2 hr
            (fun pr hpr => hpairs pr (List.mem_cons_of_mem _ hpr))
          have hfac := pfFindNewMatch_factor st note.pitch i note.time
            note.velocity m hm
            (fun lm hlm pl hpl =>
              hpairs (i, note) (List.mem_cons_self _ _) lm hlm pl hpl)
          refine ⟨?_, ?_, ?_⟩
          · intro m2 hm2
            rcases List.mem_cons.mp hm2 with hm0 | hm3
            · rw [hm0]
              exact hfac.1
            · exact hrest.1 m2 hm3
          · intro hn m2 hm2
            rcases List.mem_cons.mp hm2 with hm0 | hm3
            · rw [hm0]
              exact hfac.2 hn
            · exact hrest.2.1 hn m2 hm3
          · intro m2 hm2
            rcases List.mem_cons.mp hm2 with hm0 | hm3
            · refine ⟨(i, note), List.mem_cons_self _ _, ?_⟩
              rw [hm0]
              exact pfFindNewMatch_liveIndex st note.pitch i note.time
                note.velocity m hm
            · obtain ⟨pr, hpr, hpr2⟩ := hrest.2.2 m2 hm3
              exact ⟨pr, List.mem_cons_of_mem _ hpr, hpr2⟩
    next hm =>
      split at h
      next => simp at h
      next ms2 ig2 pamo2 hr =>
        obtain ⟨h1, h2, h3⟩ : ms2 = ms ∧ i :: ig2 = ig ∧ pamo2 = pamo := by
          simpa using h
        subst h1
        have hrest := ih mlen ms2 ig2 pamo2 hr
          (fun pr hpr => hpairs pr (List.mem_cons_of_mem _ hpr))
        refine ⟨hrest.1, hrest.2.1, ?_⟩
        intro m2 hm2
        obtain ⟨pr, hpr, hpr2⟩ := hrest.2.2 m2 hm2
        exact ⟨pr, List.mem_cons_of_mem _ hpr, hpr2⟩

/-- Helper: an element of the enumerated dropped live buffer is a genuine
indexed entry at or beyond the drop point. -/
theorem mem_enum_drop (l : List ScoreNote) (n : ℕ) (pr : ℕ × ScoreNote)
    (h : pr ∈ l.enum.drop n) : l[pr.1]? = some pr.2 ∧ n ≤ pr.1 := by
  obtain ⟨j, hj⟩ := List.mem_iff_getElem?.mp h
  rw [List.getElem?_drop, List.getElem?_enum] at hj
  cases hx : l[n + j]? with
  | none => rw [hx] at hj; simp at hj
  | some a =>
    rw [hx] at hj
    obtain hj2 : (n + j, a) = pr := by simpa using hj
    rw [← hj2]
    exact ⟨hx, by omega⟩

/-- Strict-follower invariant: matches point into the live buffer. -/
def liveBoundHP (st : HomophonoPedantic) : Prop :=
  ∀ m ∈ st.matches, m.live_index < st.live.length

/-- Strict-follower invariant: all stored factors are positive or `+inf`,
and the first stored match has factor `1.0`. -/
def factorsOkHP (st : HomophonoPedantic) : Prop :=
  (∀ m ∈ st.matches, posOrInf m.stretch_factor) ∧
  (∀ m, st.matches.head? = some m → m.stretch_factor = .fin 1)

/-- Helper: every strict-follower run with a strictly increasing live clock
preserves the factor invariants. -/
theorem runHP_factors :
    ∀ (batches : List (List ScoreNote)) (st st2 : HomophonoPedantic),
      List.Pairwise (fun a b => a.time < b.time) (st.live ++ batches.flatten) →
      liveBoundHP st → factorsOkHP st →
      runHP st batches = .ok st2 →
      liveBoundHP st2 ∧ factorsOkHP st2 := by
  intro batches
  induction batches with
  | nil =>
    intro st st2 hpw hb hf h
    obtain h2 : st = st2 := by simpa [runHP] using h
    rw [← h2]
    exact ⟨hb, hf⟩
  | cons batch rest ih =>
    intro st st2 hpw hb hf h
    rw [runHP] at h
    split at h
    next => simp at h
    next stm hstep =>
      rw [List.flatten_cons, ← List.append_assoc] at hpw
      have hpw' : List.Pairwise (fun a b : ScoreNote => a.time < b.time)
          (st.live ++ batch) := (List.pairwise_append.mp hpw).1
      rw [hpFollowScore] at hstep
      split at hstep
      next => simp at hstep
      next ms ig hfind =>
        obtain h3 : { pushAllHP st batch with
            «matches» := (pushAllHP st batch).matches ++ ms,
            ignored := (pushAllHP st batch).ignored ++ ig } = stm := by
          simpa using hstep
        rw [hpFindNewMatches] at hfind
        have hfacts := hpFindAux_facts (pushAllHP st batch).score
          (pushAllHP st batch).live (pushAllHP st batch).matches.getLast?
          _ _ _ _ hfind ?_
        · refine ih stm st2 ?_ ?_ ?_ h
          · rw [← h3]
            simp only [pushAllHP]
            exact hpw
          · rw [← h3]
            intro m hm
            simp only [pushAllHP] at hm ⊢
            rcases List.mem_append.mp hm with hm1 | hm2
            · have := hb m hm1
              simp only [List.length_append]
              omega
            · obtain ⟨pr, hpr, hpr2⟩ := hfacts.2.2 m hm2
              simp only [pushAllHP] at hpr
              obtain ⟨hget, -⟩ := mem_enum_drop _ _ _ hpr
              obtain ⟨hlt, -⟩ := List.getElem?_eq_some.mp hget
              rw [hpr2]
              exact hlt
          · rw [← h3]
            constructor
            · intro m hm
              simp only [pushAllHP] at hm
              rcases List.mem_append.mp hm with hm1 | hm2
              · exact hf.1 m hm1
              · exact hfacts.1 m hm2
            · intro m hm
              simp only [pushAllHP] at hm
              cases hms : st.matches with
              | nil =>
                rw [hms] at hm
                simp only [List.nil_append] at hm
                refine hfacts.2.1 ?_ m (List.mem_of_mem_head? hm)
                simp only [pushAllHP, hms]
                rfl
              | cons a tl =>
                rw [hms] at hm
                simp only [List.cons_append, List.head?_cons] at hm
                refine hf.2 m ?_
                rw [hms, List.head?_cons]
                exact hm
        · intro pr hpr lm hlm pl hpl
          simp only [pushAllHP] at hpr hlm hpl
          obtain ⟨hget, hge⟩ := mem_enum_drop _ _ _ hpr
          have hmem : lm ∈ st.matches := List.mem_of_mem_getLast? hlm
          have hlt : lm.live_index < st.live.length := hb lm hmem
          obtain ⟨hprlt, hprget⟩ := List.getElem?_eq_some.mp hget
          obtain ⟨hpllt, hplget⟩ := List.getElem?_eq_some.mp hpl
          have := (List.pairwise_iff_getElem.mp hpw') lm.live_index pr.1
            hpllt hprlt (by omega)
          rw [hplget, hprget] at this
          exact this

/-- Flex-follower invariant: matches point into the live buffer. -/
def liveBoundPF (st : PolyphonoFlex) : Prop :=
  ∀ m ∈ st.matches, m.live_index < st.live.length

/-- Flex-follower invariant: all stored factors are positive or `+inf`,
and the first stored match has factor `1.0`. -/
def factorsOkPF (st : PolyphonoFlex) : Prop :=
  (∀ m ∈ st.matches, posOrInf m.stretch_factor) ∧
  (∀ m, st.matches.head? = some m → m.stretch_factor = .fin 1)

/-- Helper: every flex-follower run with a strictly increasing live clock
preserves the factor invariants. -/
theorem runPF_factors :
    ∀ (batches : List (List ScoreNote)) (st st2 : PolyphonoFlex),
      List.Pairwise (fun a b => a.time < b.time) (st.live ++ batches.flatten) →
      liveBoundPF st → factorsOkPF st →
      runPF st batches = .ok st2 →
      liveBoundPF st2 ∧ factorsOkPF st2 := by
  intro batches
  induction batches with
  | nil =>
    intro st st2 hpw hb hf h
    obtain h2 : st = st2 := by simpa [runPF] using h
    rw [← h2]
    exact ⟨hb, hf⟩
  | cons batch rest ih =>
    intro st st2 hpw hb hf h
    rw [runPF] at h
    split at h
    next => simp at h
    next stm hstep =>
      rw [List.flatten_cons, ← List.append_assoc] at hpw
      have hpw' : List.Pairwise (fun a b : ScoreNote => a.time < b.time)
          (st.live ++ batch) := (List.pairwise_append.mp hpw).1
      rw [pfFollowScore] at hstep
      split at hstep
      next => simp at hstep
      next ms ig pamo hfind =>
        obtain h3 : { pushAllPF st batch with
            «matches» := (pushAllPF st batch).matches ++ ms,
            ignored := (pushAllPF st batch).ignored ++ ig,
            matchOffsetsByPitch := applyPamo (pushAllPF st batch).matchOffsetsByPitch
              (pushAllPF st batch).matches.length pamo } = stm := by
          simpa using hstep
        have hfacts := pfFindAux_facts (pushAllPF st batch) _ _ _ _ _ hfind ?_
        · refine ih stm st2 ?_ ?_ ?_ h
          · rw [← h3]
            simp only [pushAllPF]
            exact hpw
          · rw [← h3]
            intro m hm
            simp only [pushAllPF] at hm ⊢
            rcases List.mem_append.mp hm with hm1 | hm2
            · have := hb m hm1
              simp only [List.length_append]
              omega
            · obtain ⟨pr, hpr, hpr2⟩ := hfacts.2.2 m hm2
              simp only [pushAllPF] at hpr
              obtain ⟨hget, -⟩ := mem_enum_drop _ _ _ hpr
              obtain ⟨hlt, -⟩ := List.getElem?_eq_some.mp hget
              rw [hpr2]
              exact hlt
          · rw [← h3]
            constructor
            · intro m hm
              simp only [pushAllPF] at hm
              rcases List.mem_append.mp hm with hm1 | hm2
              · exact hf.1 m hm1
              · exact hfacts.1 m hm2
            · intro m hm
              simp only [pushAllPF] at hm
              cases hms : st.matches with
              | nil =>
                rw [hms] at hm
                simp only [List.nil_append] at hm
                refine hfacts.2.1 ?_ m (List.mem_of_mem_head? hm)
                simp only [pushAllPF, hms]
                rfl
              | cons a tl =>
                rw [hms] at hm
                simp only [List.cons_append, List.head?_cons] at hm
                refine hf.2 m ?_
                rw [hms, List.head?_cons]
                exact hm
        · intro pr hpr lm hlm pl hpl
          simp only [pushAllPF] at hpr hlm hpl
          obtain ⟨hget, hge⟩ := mem_enum_drop _ _ _ hpr
          have hmem : lm ∈ st.matches := List.mem_of_mem_getLast? hlm
          have hlt : lm.live_index < st.live.length := hb lm hmem
          obtain ⟨hprlt, hprget⟩ := List.getElem?_eq_some.mp hget
          obtain ⟨hpllt, hplget⟩ := List.getElem?_eq_some.mp hpl
          have := (List.pairwise_iff_getElem.mp hpw') lm.live_index pr.1
            hpllt hprlt (by omega)
          rw [hplget, hprget] at this
          exact this

/-- C3 (amended): for every completed run of either matcher on live notes with
strictly increasing timestamps, every stretch factor stored in a match is
strictly positive but not necessarily finite: a chord (zero score-time
elapsed between the consecutive matched score notes) stores IEEE `+inf`
rather than a finite value; the first stored match has stretch factor
`1.0`. -/
theorem stretch_factors_positive
    (score : List ScoreNote) (batches : List (List ScoreNote))
    (hlive : List.Pairwise (fun a b => a.time < b.time) batches.flatten) :
    (∀ stH, runHP (initHP score) batches = .ok stH →
      (∀ m ∈ stH.matches, posOrInf m.stretch_factor) ∧
      (∀ m, stH.matches.head? = some m → m.stretch_factor = .fin 1)) ∧
    (∀ stP, runPF (initPF score) batches = .ok stP →
      (∀ m ∈ stP.matches, posOrInf m.stretch_factor) ∧
      (∀ m, stP.matches.head? = some m → m.stretch_factor = .fin 1)) := by
  constructor
  · intro stH hH
    exact (runHP_factors batches (initHP score) stH
      (by simpa [initHP] using hlive)
      (by intro m hm; simp [initHP] at hm) (⟨by intro m hm; simp [initHP] at hm,
        by intro m hm; simp [initHP] at hm⟩) hH).2
  · intro stP hP
    exact (runPF_factors batches (initPF score) stP
      (by simpa [initPF] using hlive)
      (by intro m hm; simp [initPF] at hm) (⟨by intro m hm; simp [initPF] at hm,
        by intro m hm; simp [initPF] at hm⟩) hP).2



/-- Counterexample to C3 as stated: on the chord score
`[(1000 ms, 60), (1000 ms, 62)]` with live notes at 5 ms and 10 ms, the strict
matcher's second match divides the positive elapsed live time by the zero
elapsed score time and stores the IEEE `+inf`, which is not finite. -/
theorem chord_run_stores_infinite_factor :
    runHP (initHP [⟨1000, 60, 100⟩, ⟨1000, 62, 100⟩])
        [[⟨5, 60, 100⟩], [⟨10, 62, 100⟩]] =
      .ok ⟨[⟨1000, 60, 100⟩, ⟨1000, 62, 100⟩], [⟨5, 60, 100⟩, ⟨10, 62, 100⟩],
        [⟨0, 0, .fin 1, 100, 100⟩, ⟨1, 1, .inf, 100, 100⟩], []⟩ ∧
    F32.isFinite .inf = false := by
  constructor
  · norm_num [runHP, initHP, pushAllHP, hpFollowScore, hpFindNewMatches, hpFindAux,
      hpStretchAtNewMatch, csub, get_stretch_factor, find_next_match_starting_at,
      List.enum, List.enumFrom, List.findIdx?]
  · rfl

/-- Witness for the amended C3 on the chord run of both matchers: the first
factor is `1.0` (positive) and the chord factor is `+inf`. -/
theorem stretch_factors_positive_witness :
    runHP (initHP [⟨1000, 60, 100⟩, ⟨1000, 62, 100⟩])
        [[⟨5, 60, 100⟩], [⟨10, 62, 100⟩]] =
      .ok ⟨[⟨1000, 60, 100⟩, ⟨1000, 62, 100⟩], [⟨5, 60, 100⟩, ⟨10, 62, 100⟩],
        [⟨0, 0, .fin 1, 100, 100⟩, ⟨1, 1, .inf, 100, 100⟩], []⟩ ∧
    runPF (initPF [⟨1000, 60, 100⟩, ⟨1000, 62, 100⟩])
        [[⟨5, 60, 100⟩], [⟨10, 62, 100⟩]] =
      .ok ⟨[⟨1000, 60, 100⟩, ⟨1000, 62, 100⟩], [⟨5, 60, 100⟩, ⟨10, 62, 100⟩],
        [⟨0, 0, .fin 1, 100, 100⟩, ⟨0, 1, .inf, 100, 100⟩],
        ((List.replicate 128 []).set 60 [0]).set 62 [1], []⟩ ∧
    posOrInf (.fin 1) ∧ posOrInf .inf := by
  have h1 : runHP (initHP [⟨1000, 60, 100⟩, ⟨1000, 62, 100⟩])
      [[⟨5, 60, 100⟩], [⟨10, 62, 100⟩]] =
      .ok ⟨[⟨1000, 60, 100⟩, ⟨1000, 62, 100⟩], [⟨5, 60, 100⟩, ⟨10, 62, 100⟩],
        [⟨0, 0, .fin 1, 100, 100⟩, ⟨1, 1, .inf, 100, 100⟩], []⟩ := by
    norm_num [runHP, initHP, pushAllHP, hpFollowScore, hpFindNewMatches, hpFindAux,
      hpStretchAtNewMatch, csub, get_stretch_factor, find_next_match_starting_at,
      List.enum, List.enumFrom, List.findIdx?]
  have h2 : runPF (initPF [⟨1000, 60, 100⟩, ⟨1000, 62, 100⟩])
      [[⟨5, 60, 100⟩], [⟨10, 62, 100⟩]] =
      .ok ⟨[⟨1000, 60, 100⟩, ⟨1000, 62, 100⟩], [⟨5, 60, 100⟩, ⟨10, 62, 100⟩],
        [⟨0, 0, .fin 1, 100, 100⟩, ⟨0, 1, .inf, 100, 100⟩],
        ((List.replicate 128 []).set 60 [0]).set 62 [1], []⟩ := by
    norm_num [runPF, initPF, pushAllPF, pfFollowScore, pfFindAux, pfFindNewMatch,
      pfNextUnmatchedOffset, pfLiveTimeMapped, pfStretchAtNewMatch, scanBucket,
      scoreByPitch, applyPamo, csub, get_stretch_factor, f32Recip, stretchE, adiff,
      List.enum, List.enumFrom, List.range, List.range.loop, List.filter]
  have h := stretch_factors_positive [⟨1000, 60, 100⟩, ⟨1000, 62, 100⟩]
    [[⟨5, 60, 100⟩], [⟨10, 62, 100⟩]]
    (by norm_num [List.pairwise_cons])
  refine ⟨h1, h2, ?_, ?_⟩
  · exact (h.1 _ h1).1 ⟨0, 0, .fin 1, 100, 100⟩ (by simp)
  · exact (h.1 _ h1).1 ⟨1, 1, .inf, 100, 100⟩ (by simp)

/-- Helper: a successful forward search never returns an index before the
starting pointer. -/
theorem find_next_ge (score : List ScoreNote) (ptr p s : ℕ)
    (h : find_next_match_starting_at score ptr p = some s) : ptr ≤ s := by
  rw [find_next_match_starting_at] at h
  cases hf : (score.drop ptr).findIdx? (fun note => note.pitch = p) with
  | none => rw [hf] at h; simp at h
  | some j =>
    rw [hf] at h
    obtain h2 : ptr + j = s := by simpa using h
    omega

/-- Helper: one strict-matcher batch produces matches whose live and score
indices strictly increase, stay above the incoming pointers, and start at
enumerated live positions. -/
theorem hpFindAux_mono (score live : List ScoreNote) (lastM : Option MatchPerScore) :
    ∀ (pairs : List (ℕ × ScoreNote)) (ptr : ℕ) (ms : List MatchPerScore) (ig : List ℕ),
      hpFindAux score live lastM ptr pairs = .ok (ms, ig) →
      (pairs.map Prod.fst).Pairwise (· < ·) →
      (∀ m ∈ ms, ptr ≤ m.score_index) ∧
      (∀ m ∈ ms, ∃ pr ∈ pairs, m.live_index = pr.1) ∧
      ms.Pairwise (fun a b => a.live_index < b.live_index ∧
        a.score_index < b.score_index) := by
  intro pairs
  induction pairs with
  | nil =>
    intro ptr ms ig h hsort
    obtain ⟨h1, h2⟩ : ([] : List MatchPerScore) = ms ∧ ([] : List ℕ) = ig := by
      simpa [hpFindAux] using h
    subst h1
    simp
  | cons p rest ih =>
    intro ptr ms ig h hsort
    obtain ⟨i, note⟩ := p
    rw [List.map_cons, List.pairwise_cons] at hsort
    rw [hpFindAux] at h
    split at h
    next s hf =>
      split at h
      next ek hk => simp at h
      next k hk =>
        split at h
        next hsn => simp at h
        next sn hsn =>
          split at h
          next er hr => simp at h
          next ms2 ig2 hr =>
            obtain ⟨h1, h2⟩ :
                (⟨s, i, k, sn.velocity, note.velocity⟩ : MatchPerScore) :: ms2 = ms ∧
                  ig2 = ig := by simpa using h
            subst h1
            subst h2
            obtain ⟨ihptr, ihmem, ihpw⟩ := ih (s + 1) ms2 ig2 hr hsort.2
            have hps : ptr ≤ s := find_next_ge score ptr note.pitch s hf
            refine ⟨?_, ?_, ?_⟩
            · intro m hm
              rcases List.mem_cons.mp hm with hm0 | hm2
              · rw [hm0]
                exact hps
              · have := ihptr m hm2
                omega
            · intro m hm
              rcases List.mem_cons.mp hm with hm0 | hm2
              · exact ⟨(i, note), List.mem_cons_self _ _, by rw [hm0]⟩
              · obtain ⟨pr, hpr, hpr2⟩ := ihmem m hm2
                exact ⟨pr, List.mem_cons_of_mem _ hpr, hpr2⟩
            · rw [List.pairwise_cons]
              refine ⟨?_, ihpw⟩
              intro m2 hm2
              obtain ⟨pr, hpr, hpr2⟩ := ihmem m2 hm2
              have hlive : i < m2.live_index := by
                rw [hpr2]
                exact hsort.1 pr.1 (List.mem_map_of_mem Prod.fst hpr)
              have hscore : s < m2.score_index := by
                have := ihptr m2 hm2
                omega
              exact ⟨hlive, hscore⟩
    next hf =>
      split at h
      next er hr => simp at h
      next ms2 ig2 hr =>
        obtain ⟨h1, h2⟩ : ms2 = ms ∧ i :: ig2 = ig := by simpa using h
        subst h1
        obtain ⟨ihptr, ihmem, ihpw⟩ := ih ptr ms2 ig2 hr hsort.2
        refine ⟨ihptr, ?_, ihpw⟩
        intro m hm
        obtain ⟨pr, hpr, hpr2⟩ := ihmem m hm
        exact ⟨pr, List.mem_cons_of_mem _ hpr, hpr2⟩

/-- Helper: in a pairwise-related list every element either is the last
element or is related to it. -/
theorem pairwise_getLast {α : Type} (l : List α) (R : α → α → Prop)
    (hp : l.Pairwise R) (lm : α) (hlm : l.getLast? = some lm) :
    ∀ m ∈ l, m = lm ∨ R m lm := by
  intro m hm
  rw [List.getLast?_eq_getElem?] at hlm
  obtain ⟨i, hi, hig⟩ := List.mem_iff_getElem.mp hm
  obtain ⟨hl1, hl2⟩ := List.getElem?_eq_some.mp hlm
  rcases Nat.lt_or_ge i (l.length - 1) with hlt | hge
  · right
    have := (List.pairwise_iff_getElem.mp hp) i (l.length - 1) hi hl1 hlt
    rw [hig, hl2] at this
    exact this
  · left
    have hieq : i = l.length - 1 := by omega
    subst hieq
    rw [← hig]
    exact hl2

/-- Strict-follower invariant: the committed match list is strictly
increasing in both `live_index` and `score_index`. -/
def monoHP (st : HomophonoPedantic) : Prop :=
  st.matches.Pairwise (fun a b => a.live_index < b.live_index ∧
    a.score_index < b.score_index)

/-- Helper: a completed strict-matcher run preserves the live-index bound
and strict monotonicity of the match list. -/
theorem runHP_mono :
    ∀ (batches : List (List ScoreNote)) (st st2 : HomophonoPedantic),
      liveBoundHP st → monoHP st →
      runHP st batches = .ok st2 →
      liveBoundHP st2 ∧ monoHP st2 := by
  intro batches
  induction batches with
  | nil =>
    intro st st2 hb hm h
    obtain h2 : st = st2 := by simpa [runHP] using h
    rw [← h2]
    exact ⟨hb, hm⟩
  | cons batch rest ih =>
    intro st st2 hb hm h
    rw [runHP] at h
    split at h
    next => simp at h
    next stm hstep =>
      rw [hpFollowScore] at hstep
      split at hstep
      next => simp at hstep
      next ms ig hfind =>
        obtain h3 : { pushAllHP st batch with
            «matches» := (pushAllHP st batch).matches ++ ms,
            ignored := (pushAllHP st batch).ignored ++ ig } = stm := by
          simpa using hstep
        rw [hpFindNewMatches] at hfind
        have hsort : (((pushAllHP st batch).live.enum.drop
            st.live.length).map Prod.fst).Pairwise (· < ·) := by
          rw [enum_drop_map_fst]
          exact (List.pairwise_lt_range _).sublist (List.drop_sublist _ _)
        obtain ⟨hptr, hmem, hpw⟩ := hpFindAux_mono (pushAllHP st batch).score
          (pushAllHP st batch).live (pushAllHP st batch).matches.getLast?
          _ _ _ _ hfind hsort
        refine ih stm st2 ?_ ?_ h
        · rw [← h3]
          intro m hm2
          simp only [pushAllHP] at hm2 ⊢
          rcases List.mem_append.mp hm2 with hm1 | hm2b
          · have := hb m hm1
            simp only [List.length_append]
            omega
          · obtain ⟨pr, hpr, hpr2⟩ := hmem m hm2b
            simp only [pushAllHP] at hpr
            obtain ⟨hget, -⟩ := mem_enum_drop _ _ _ hpr
            obtain ⟨hlt, -⟩ := List.getElem?_eq_some.mp hget
            rw [hpr2]
            exact hlt
        · rw [← h3]
          unfold monoHP
          simp only [pushAllHP]
          rw [List.pairwise_append]
          refine ⟨hm, hpw, ?_⟩
          intro m1 hm1 m2 hm2
          constructor
          · obtain ⟨pr, hpr, hpr2⟩ := hmem m2 hm2
            simp only [pushAllHP] at hpr
            obtain ⟨-, hge⟩ := mem_enum_drop _ _ _ hpr
            have := hb m1 hm1
            omega
          · cases hlast : st.matches.getLast? with
            | none =>
              rw [List.getLast?_eq_none_iff] at hlast
              rw [hlast] at hm1
              simp at hm1
            | some lm =>
              have hp2 : (pushAllHP st batch).matches.getLast? = some lm := hlast
              rw [hp2] at hptr
              have h4 : lm.score_index + 1 ≤ m2.score_index := hptr m2 hm2
              rcases pairwise_getLast st.matches _ hm lm hlast m1 hm1 with he | hr
              · rw [he]
                omega
              · have := hr.2
                omega

/-- Helper: a strict absolute-distance comparison between two score times
below the live time transfers to every later live time. -/
theorem adiff_transfer (a b t t2 : ℚ) (hab : a ≤ b) (ht : t ≤ t2)
    (h : adiff b t < adiff a t) : adiff b t2 < adiff a t2 := by
  simp only [adiff] at h ⊢
  split_ifs at * <;> linarith

/-- Helper: length of the initial strictly-improving chain of the bucket
scan, the closed form of how far `scanBucket` walks. -/
def chainLen (score : List ScoreNote) (t : ℚ) : List ℕ → ℚ → ℕ
  | [], _ => 0
  | s :: rest, dmin =>
    match score[s]? with
    | none => 0
    | some note =>
      if adiff note.time t < dmin then chainLen score t rest (adiff note.time t) + 1
      else 0

/-- Helper: closed form of the bucket scan in terms of `chainLen`. -/
theorem scanBucket_cf (score : List ScoreNote) (t : ℚ) :
    ∀ (offs : List ℕ) (pos : ℕ) (dmin : ℚ) (best : Option ℕ),
      (∀ s ∈ offs, s < score.length) →
      scanBucket score offs pos t dmin best =
        .ok (if chainLen score t offs dmin = 0 then best
             else some (pos + chainLen score t offs dmin - 1)) := by
  intro offs
  induction offs with
  | nil => intro pos dmin best hin; simp [scanBucket, chainLen]
  | cons s rest ih =>
    intro pos dmin best hin
    have hs : s < score.length := hin s (List.mem_cons_self _ _)
    obtain ⟨note, hnote⟩ : ∃ note, score[s]? = some note :=
      ⟨score[s], List.getElem?_eq_getElem hs⟩
    simp only [scanBucket, chainLen, hnote]
    by_cases hd : adiff note.time t < dmin
    · rw [if_pos hd, if_pos hd]
      rw [ih (pos + 1) (adiff note.time t) (some pos)
        (fun x hx => hin x (List.mem_cons_of_mem _ hx))]
      by_cases hc : chainLen score t rest (adiff note.time t) = 0
      · rw [if_pos hc, hc]
        simp
      · rw [if_neg hc, if_neg (by omega)]
        congr 2
        omega
    · rw [if_neg hd, if_neg hd]
      simp

/-- Helper: induction core of `chainLen_mono`, relative to a previous
bucket note that bounds the current minimum distance. -/
theorem chainLen_mono_aux (score : List ScoreNote) (t t2 : ℚ) (ht : t ≤ t2) :
    ∀ (offs : List ℕ) (sp : ℕ) (spn : ScoreNote),
      score[sp]? = some spn →
      List.Pairwise (fun a b => ∀ na nb, score[a]? = some na →
        score[b]? = some nb → na.time ≤ nb.time) (sp :: offs) →
      chainLen score t offs (adiff spn.time t) ≤
        chainLen score t2 offs (adiff spn.time t2) := by
  intro offs
  induction offs with
  | nil => intro sp spn hsp hpw; simp [chainLen]
  | cons s rest ih =>
    intro sp spn hsp hpw
    cases hs : score[s]? with
    | none => simp [chainLen, hs]
    | some note =>
      simp only [chainLen, hs]
      have hrel : spn.time ≤ note.time :=
        (List.pairwise_cons.mp hpw).1 s (List.mem_cons_self _ _) spn note hsp hs
      by_cases hd : adiff note.time t < adiff spn.time t
      · have hd2 : adiff note.time t2 < adiff spn.time t2 :=
          adiff_transfer spn.time note.time t t2 hrel ht hd
        rw [if_pos hd, if_pos hd2]
        have hpw2 : List.Pairwise (fun a b => ∀ na nb, score[a]? = some na →
            score[b]? = some nb → na.time ≤ nb.time) (s :: rest) :=
          (List.pairwise_cons.mp hpw).2
        have := ih s note hs hpw2
        omega
      · rw [if_neg hd]
        omega

/-- Helper: over a time-sorted bucket, a later live time walks at least as
far as an earlier one (when the earlier walk is non-trivial). -/
theorem chainLen_mono (score : List ScoreNote) (t t2 : ℚ) (ht : t ≤ t2)
    (offs : List ℕ)
    (hpw : List.Pairwise (fun a b => ∀ na nb, score[a]? = some na →
      score[b]? = some nb → na.time ≤ nb.time) offs)
    (h1 : 1 ≤ chainLen score t2 offs 9999000) :
    chainLen score t offs 9999000 ≤ chainLen score t2 offs 9999000 := by
  cases offs with
  | nil => simp [chainLen] at h1
  | cons s rest =>
    cases hs : score[s]? with
    | none => simp [chainLen, hs]
    | some note =>
      simp only [chainLen, hs] at h1 ⊢
      by_cases hd2 : adiff note.time t2 < 9999000
      · rw [if_pos hd2] at h1 ⊢
        by_cases hd : adiff note.time t < 9999000
        · rw [if_pos hd]
          have := chainLen_mono_aux score t t2 ht rest s note hs hpw
          omega
        · rw [if_neg hd]
          omega
      · rw [if_neg hd2] at h1
        omega

/-- Helper: every bucket entry is a valid score index. -/
theorem scoreByPitch_bound (score : List ScoreNote) (p s : ℕ)
    (h : s ∈ scoreByPitch score p) : s < score.length := by
  rw [scoreByPitch] at h
  have := List.mem_of_mem_filter h
  exact List.mem_range.mp this

/-- Helper: a time-sorted score yields time-sorted pitch buckets. -/
theorem scoreByPitch_sorted (score : List ScoreNote) (p : ℕ)
    (hscore : List.Pairwise (fun a b => a.time ≤ b.time) score) :
    List.Pairwise (fun a b => ∀ na nb, score[a]? = some na →
      score[b]? = some nb → na.time ≤ nb.time) (scoreByPitch score p) := by
  have hlt : (scoreByPitch score p).Pairwise (· < ·) :=
    (List.pairwise_lt_range _).sublist (List.filter_sublist _)
  refine hlt.imp_of_mem ?_
  intro a b ha hb hab na nb hna hnb
  obtain ⟨ha2, hna2⟩ := List.getElem?_eq_some.mp hna
  obtain ⟨hb2, hnb2⟩ := List.getElem?_eq_some.mp hnb
  have := (List.pairwise_iff_getElem.mp hscore) a b ha2 hb2 hab
  rw [hna2, hnb2] at this
  exact this

/-- Helper: the score-time mapping of live time is monotone in the live
time. -/
theorem pfLiveTimeMapped_mono (st : PolyphonoFlex) (t t2 d d2 : ℚ) (ht : t ≤ t2)
    (h1 : pfLiveTimeMapped st t = .ok d) (h2 : pfLiveTimeMapped st t2 = .ok d2) :
    d ≤ d2 := by
  rw [pfLiveTimeMapped] at h1 h2
  cases hlast : st.matches.getLast? with
  | none =>
    simp only [hlast] at h1 h2
    obtain hd1 : (0 : ℚ) = d := by simpa using h1
    obtain hd2 : (0 : ℚ) = d2 := by simpa using h2
    rw [← hd1, ← hd2]
  | some m =>
    simp only [hlast] at h1 h2
    cases hpl : st.live[m.live_index]? with
    | none => simp only [hpl] at h1; simp at h1
    | some pl =>
      simp only [hpl] at h1 h2
      cases hc1 : csub t pl.time with
      | none => simp only [hc1] at h1; simp at h1
      | some dt =>
        cases hc2 : csub t2 pl.time with
        | none => simp only [hc2] at h2; simp at h2
        | some dt2 =>
          simp only [hc1] at h1
          simp only [hc2] at h2
          obtain ⟨hle1, he1⟩ := csub_some _ _ _ hc1
          obtain ⟨hle2, he2⟩ := csub_some _ _ _ hc2
          cases hr : f32Recip m.stretch_factor with
          | fin q =>
            rw [hr, stretchE] at h1 h2
            by_cases hq : 0 ≤ q
            · rw [if_pos hq] at h1 h2
              obtain hd1 : dt * q = d := by simpa using h1
              obtain hd2 : dt2 * q = d2 := by simpa using h2
              rw [← hd1, ← hd2]
              have : dt ≤ dt2 := by rw [he1, he2]; linarith
              exact mul_le_mul_of_nonneg_right this hq
            · rw [if_neg hq] at h1
              simp at h1
          | inf => rw [hr, stretchE] at h1; simp at h1
          | nan => rw [hr, stretchE] at h1; simp at h1

/-- Helper: a successful flex match decomposes into its base offset,
mapped live time and bucket-scan result. -/
theorem pfFindNewMatch_details (st : PolyphonoFlex) (p i : ℕ) (t : ℚ) (v : ℕ)
    (m : MatchPerPitch) (h : pfFindNewMatch st p i t v = .ok (some m)) :
    ∃ base tm, pfNextUnmatchedOffset st p = .ok base ∧
      pfLiveTimeMapped st t = .ok tm ∧
      scanBucket st.score ((scoreByPitch st.score p).drop base) base tm
        9999000 none = .ok (some m.score_per_pitch_index) ∧
      m.live_index = i := by
  rw [pfFindNewMatch] at h
  split at h
  next => simp at h
  next base hbase =>
    split at h
    next => simp at h
    next tm htm =>
      split at h
      next => simp at h
      next hscan => simp at h
      next idx hscan =>
        split at h
        next => simp at h
        next si hsi =>
          split at h
          next => simp at h
          next sn hsn =>
            split at h
            next => simp at h
            next k hk =>
              obtain h2 : (⟨idx, i, k, sn.velocity, v⟩ : MatchPerPitch) = m := by
                simpa using h
              refine ⟨base, tm, hbase, htm, ?_, by rw [← h2]⟩
              rw [← h2]
              exact hscan

/-- Helper: a successful bucket scan returns base plus the chain length
minus one, with a non-trivial chain. -/
theorem scan_result_cf (st : PolyphonoFlex) (p base : ℕ) (tm : ℚ) (idx : ℕ)
    (hscan : scanBucket st.score ((scoreByPitch st.score p).drop base) base tm
      9999000 none = .ok (some idx)) :
    1 ≤ chainLen st.score tm ((scoreByPitch st.score p).drop base) 9999000 ∧
    idx = base + chainLen st.score tm ((scoreByPitch st.score p).drop base)
      9999000 - 1 := by
  have hin : ∀ s ∈ (scoreByPitch st.score p).drop base, s < st.score.length :=
    fun s hs => scoreByPitch_bound st.score p s
      (List.mem_of_mem_drop hs)
  rw [scanBucket_cf st.score tm _ base 9999000 none hin] at hscan
  by_cases hc : chainLen st.score tm ((scoreByPitch st.score p).drop base)
      9999000 = 0
  · rw [if_pos hc] at hscan
    simp at hscan
  · rw [if_neg hc] at hscan
    obtain h2 := by simpa using hscan
    exact ⟨by omega, h2.symm⟩

/-- Helper: two successful flex matches at the same pitch from the same
state have bucket offsets ordered like their live times. -/
theorem pfFindNewMatch_mono (st : PolyphonoFlex)
    (hscore : List.Pairwise (fun a b => a.time ≤ b.time) st.score)
    (p i i2 : ℕ) (t t2 : ℚ) (v v2 : ℕ) (m m2 : MatchPerPitch) (ht : t ≤ t2)
    (h1 : pfFindNewMatch st p i t v = .ok (some m))
    (h2 : pfFindNewMatch st p i2 t2 v2 = .ok (some m2)) :
    m.score_per_pitch_index ≤ m2.score_per_pitch_index := by
  obtain ⟨base, tm, hb1, htm1, hscan1, -⟩ := pfFindNewMatch_details st p i t v m h1
  obtain ⟨base2, tm2, hb2, htm2, hscan2, -⟩ :=
    pfFindNewMatch_details st p i2 t2 v2 m2 h2
  obtain hbeq : base = base2 := by
    rw [hb1] at hb2
    simpa using hb2
  subst hbeq
  have htmle : tm ≤ tm2 := pfLiveTimeMapped_mono st t t2 tm tm2 ht htm1 htm2
  obtain ⟨hc1, he1⟩ := scan_result_cf st p base tm _ hscan1
  obtain ⟨hc2, he2⟩ := scan_result_cf st p base tm2 _ hscan2
  have hpw : List.Pairwise (fun a b => ∀ na nb, st.score[a]? = some na →
      st.score[b]? = some nb → na.time ≤ nb.time)
      ((scoreByPitch st.score p).drop base) :=
    (scoreByPitch_sorted st.score p hscore).sublist (List.drop_sublist _ _)
  have := chainLen_mono st.score tm tm2 htmle _ hpw hc2
  omega

/-- Helper: one flex-matcher batch produces matches originating from the
processed pairs, pairwise offset-monotone at equal pitches. -/
theorem pfFindAux_mono (st : PolyphonoFlex)
    (hscore : List.Pairwise (fun a b => a.time ≤ b.time) st.score) :
    ∀ (pairs : List (ℕ × ScoreNote)) (mlen : ℕ) (ms : List MatchPerPitch)
      (ig : List ℕ) (pamo : List (ℕ × ℕ)),
      pfFindAux st pairs mlen = .ok (ms, ig, pamo) →
      (∀ pr ∈ pairs, st.live[pr.1]? = some pr.2) →
      (pairs.map (fun pr => pr.2.time)).Pairwise (· ≤ ·) →
      (∀ m ∈ ms, ∃ pr ∈ pairs, m.live_index = pr.1 ∧
        pfFindNewMatch st pr.2.pitch pr.1 pr.2.time pr.2.velocity = .ok (some m)) ∧
      ms.Pairwise (fun a b => ∀ na nb, st.live[a.live_index]? = some na →
        st.live[b.live_index]? = some nb → na.pitch = nb.pitch →
        a.score_per_pitch_index ≤ b.score_per_pitch_index) := by
  intro pairs
  induction pairs with
  | nil =>
    intro mlen ms ig pamo h hpl htimes
    obtain ⟨h1, h2, h3⟩ : ([] : List MatchPerPitch) = ms ∧ ([] : List ℕ) = ig ∧
        ([] : List (ℕ × ℕ)) = pamo := by simpa [pfFindAux] using h
    subst h1
    simp
  | cons p rest ih =>
    intro mlen ms ig pamo h hpl htimes
    obtain ⟨i, note⟩ := p
    rw [List.map_cons, List.pairwise_cons] at htimes
    rw [pfFindAux] at h
    split at h
    next e he => simp at h
    next m hm =>
      split at h
      next => simp at h
      next ln hln =>
        split at h
        next => simp at h
        next ms2 ig2 pamo2 hr =>
          obtain ⟨h1, h2, h3⟩ : m :: ms2 = ms ∧ ig2 = ig ∧
              (ln.pitch, mlen) :: pamo2 = pamo := by simpa using h
          subst h1
          obtain ⟨ihmem, ihpw⟩ := ih (mlen + 1) ms2 ig2 pamo2 hr
            (fun pr hpr => hpl pr (List.mem_cons_of_mem _ hpr)) htimes.2
          have hmi : m.live_index = i := pfFindNewMatch_liveIndex st note.pitch i
            note.time note.velocity m hm
          refine ⟨?_, ?_⟩
          · intro m2 hm2
            rcases List.mem_cons.mp hm2 with hm0 | hm3
            · exact ⟨(i, note), List.mem_cons_self _ _, by rw [hm0]; exact hmi,
                by rw [hm0]; exact hm⟩
            · obtain ⟨pr, hpr, hpr2, hpr3⟩ := ihmem m2 hm3
              exact ⟨pr, List.mem_cons_of_mem _ hpr, hpr2, hpr3⟩
          · rw [List.pairwise_cons]
            refine ⟨?_, ihpw⟩
            intro m2 hm2 na nb hna hnb hpitch
            obtain ⟨pr, hpr, hpr2, hpr3⟩ := ihmem m2 hm2
            have hna2 : na = note := by
              rw [hmi] at hna
              have := hpl (i, note) (List.mem_cons_self _ _)
              simp only at this
              rw [this] at hna
              simpa using hna.symm
            have hnb2 : nb = pr.2 := by
              rw [hpr2] at hnb
              have := hpl pr (List.mem_cons_of_mem _ hpr)
              rw [this] at hnb
              simpa using hnb.symm
            have htle : note.time ≤ pr.2.time :=
              htimes.1 pr.2.time (List.mem_map_of_mem (fun x => x.2.time) hpr)
            have hpeq : note.pitch = pr.2.pitch := by
              rw [← hna2, ← hnb2]
              exact hpitch
            rw [← hpeq] at hpr3
            exact pfFindNewMatch_mono st hscore note.pitch i pr.1 note.time
              pr.2.time note.velocity pr.2.velocity m m2 htle hm hpr3
    next hm =>
      split at h
      next => simp at h
      next ms2 ig2 pamo2 hr =>
        obtain ⟨h1, h2, h3⟩ : ms2 = ms ∧ i :: ig2 = ig ∧ pamo2 = pamo := by
          simpa using h
        subst h1
        obtain ⟨ihmem, ihpw⟩ := ih mlen ms2 ig2 pamo2 hr
          (fun pr hpr => hpl pr (List.mem_cons_of_mem _ hpr)) htimes.2
        refine ⟨?_, ihpw⟩
        intro m2 hm2
        obtain ⟨pr, hpr, hpr2, hpr3⟩ := ihmem m2 hm2
        exact ⟨pr, List.mem_cons_of_mem _ hpr, hpr2, hpr3⟩

/-- Helper: recording pending match offsets keeps the bucket-table
length. -/
theorem applyPamo_length :
    ∀ (pamo : List (ℕ × ℕ)) (mobp : List (List ℕ)) (off : ℕ),
      (applyPamo mobp off pamo).length = mobp.length := by
  intro pamo
  induction pamo with
  | nil => intro mobp off; rfl
  | cons pr rest ih =>
    intro mobp off
    obtain ⟨q, j⟩ := pr
    rw [applyPamo, ih, List.length_set]

/-- Helper: reading a just-written bucket returns the written value. -/
theorem getD_set_self (l : List (List ℕ)) (n : ℕ) (a : List ℕ) (h : n < l.length) :
    (l.set n a).getD n [] = a := by
  rw [List.getD_eq_getElem?_getD, List.getElem?_set_self h]
  rfl

/-- Helper: writing one bucket leaves the others unchanged. -/
theorem getD_set_ne (l : List (List ℕ)) (n m : ℕ) (a : List ℕ) (h : n ≠ m) :
    (l.set n a).getD m [] = l.getD m [] := by
  rw [List.getD_eq_getElem?_getD, List.getElem?_set_ne h,
    ← List.getD_eq_getElem?_getD]

/-- Helper: after recording pending offsets, a bucket holds its old
entries followed by the new match indices at its pitch, in order. -/
theorem applyPamo_getD :
    ∀ (pamo : List (ℕ × ℕ)) (mobp : List (List ℕ)) (off p : ℕ),
      (∀ pr ∈ pamo, pr.1 < mobp.length) →
      (applyPamo mobp off pamo).getD p [] =
        mobp.getD p [] ++
          ((pamo.filter (fun pr => pr.1 == p)).map (fun pr => off + pr.2)) := by
  intro pamo
  induction pamo with
  | nil => intro mobp off p hin; simp [applyPamo]
  | cons pr rest ih =>
    intro mobp off p hin
    obtain ⟨q, j⟩ := pr
    have hq : q < mobp.length := hin (q, j) (List.mem_cons_self _ _)
    rw [applyPamo, ih _ off p (fun pr2 h2 => by
      rw [List.length_set]
      exact hin pr2 (List.mem_cons_of_mem _ h2))]
    by_cases hqp : q = p
    · subst hqp
      rw [getD_set_self mobp q _ hq]
      simp [List.filter_cons, List.append_assoc]
    · rw [getD_set_ne mobp q p _ hqp]
      have : ((q, j).1 == p) = false := by simpa using hqp
      simp [List.filter_cons, this]

/-- Helper: the pending-offset list lines up with the returned matches:
entry `j` pairs the pitch of match `j`'s live note with index
`mlen + j`. -/
theorem pfFindAux_pamo (st : PolyphonoFlex) :
    ∀ (pairs : List (ℕ × ScoreNote)) (mlen : ℕ) (ms : List MatchPerPitch)
      (ig : List ℕ) (pamo : List (ℕ × ℕ)),
      pfFindAux st pairs mlen = .ok (ms, ig, pamo) →
      pamo.length = ms.length ∧
      ∀ j, j < ms.length → ∃ m ln, ms[j]? = some m ∧
        st.live[m.live_index]? = some ln ∧ pamo[j]? = some (ln.pitch, mlen + j) := by
  intro pairs
  induction pairs with
  | nil =>
    intro mlen ms ig pamo h
    obtain ⟨h1, h2, h3⟩ : ([] : List MatchPerPitch) = ms ∧ ([] : List ℕ) = ig ∧
        ([] : List (ℕ × ℕ)) = pamo := by simpa [pfFindAux] using h
    subst h1
    subst h3
    simp
  | cons p rest ih =>
    intro mlen ms ig pamo h
    obtain ⟨i, note⟩ := p
    rw [pfFindAux] at h
    split at h
    next e he => simp at h
    next m hm =>
      split at h
      next => simp at h
      next ln hln =>
        split at h
        next => simp at h
        next ms2 ig2 pamo2 hr =>
          obtain ⟨h1, h2, h3⟩ : m :: ms2 = ms ∧ ig2 = ig ∧
              (ln.pitch, mlen) :: pamo2 = pamo := by simpa using h
          subst h1
          subst h3
          obtain ⟨ihlen, ihcorr⟩ := ih (mlen + 1) ms2 ig2 pamo2 hr
          refine ⟨by simp [ihlen], ?_⟩
          intro j hj
          cases j with
          | zero => exact ⟨m, ln, by simp, hln, by simp⟩
          | succ j2 =>
            simp only [List.length_cons] at hj
            obtain ⟨m2, ln2, hm2, hln2, hp2⟩ := ihcorr j2 (by omega)
            refine ⟨m2, ln2, by simpa using hm2, hln2, ?_⟩
            simp only [List.getElem?_cons_succ]
            rw [hp2]
            congr 2
            omega
    next hm =>
      split at h
      next => simp at h
      next ms2 ig2 pamo2 hr =>
        obtain ⟨h1, h2, h3⟩ : ms2 = ms ∧ i :: ig2 = ig ∧ pamo2 = pamo := by
          simpa using h
        subst h1
        subst h3
        exact ih mlen ms2 ig2 pamo2 hr

/-- Helper: characterisation of the next unmatched offset: `0` for an
empty bucket, else one past the offset of the bucket's last match. -/
theorem pfNextUnmatchedOffset_char (st : PolyphonoFlex) (p base : ℕ) :
    pfNextUnmatchedOffset st p = .ok base ↔
      (((st.matchOffsetsByPitch.getD p []).getLast? = none ∧ base = 0) ∨
       (∃ mi m, (st.matchOffsetsByPitch.getD p []).getLast? = some mi ∧
         st.matches[mi]? = some m ∧ base = m.score_per_pitch_index + 1)) := by
  rw [pfNextUnmatchedOffset]
  constructor
  · intro h
    split at h
    next mi hmi =>
      split at h
      next m hm =>
        obtain hb : m.score_per_pitch_index + 1 = base := by simpa using h
        exact Or.inr ⟨mi, m, hmi, hm, hb.symm⟩
      next => simp at h
    next hmi =>
      obtain hb : 0 = base := by simpa using h
      exact Or.inl ⟨hmi, hb.symm⟩
  · intro h
    rcases h with ⟨hnone, hb⟩ | ⟨mi, m, hmi, hm, hb⟩
    · rw [List.getD_eq_getElem?_getD] at hnone
      simp [hnone, hb]
    · rw [List.getD_eq_getElem?_getD] at hmi
      simp [hmi, hm, hb]

/-- Flex-follower invariant: the bucket table has one bucket per MIDI
pitch and stores only valid match indices. -/
def mobpState (st : PolyphonoFlex) : Prop :=
  st.matchOffsetsByPitch.length = 128 ∧
  ∀ p, ∀ mi ∈ st.matchOffsetsByPitch.getD p [], mi < st.matches.length

/-- Flex-follower invariant: the next unmatched offset of a pitch lies
strictly above the offset of every committed match at that pitch. -/
def baseDominates (st : PolyphonoFlex) : Prop :=
  ∀ p base, pfNextUnmatchedOffset st p = .ok base →
    ∀ m ∈ st.matches, ∀ n, st.live[m.live_index]? = some n → n.pitch = p →
      m.score_per_pitch_index < base

/-- Flex-follower invariant: committed matches whose live notes share a
pitch have monotone non-decreasing bucket offsets in match order. -/
def samePitchMono (st : PolyphonoFlex) : Prop :=
  st.matches.Pairwise (fun a b => ∀ na nb, st.live[a.live_index]? = some na →
    st.live[b.live_index]? = some nb → na.pitch = nb.pitch →
    a.score_per_pitch_index ≤ b.score_per_pitch_index)

/-- Helper: a completed flex-matcher run on sorted input preserves the
live-index bound, the bucket-table invariant, base domination and
per-pitch offset monotonicity. -/
theorem runPF_mono :
    ∀ (batches : List (List ScoreNote)) (st st2 : PolyphonoFlex),
      List.Pairwise (fun a b : ScoreNote => a.time ≤ b.time) st.score →
      List.Pairwise (fun a b : ScoreNote => a.time ≤ b.time)
        (st.live ++ batches.flatten) →
      (∀ n ∈ st.live ++ batches.flatten, n.pitch < 128) →
      liveBoundPF st → mobpState st → baseDominates st → samePitchMono st →
      runPF st batches = .ok st2 →
      liveBoundPF st2 ∧ mobpState st2 ∧ baseDominates st2 ∧ samePitchMono st2 := by
  intro batches
  induction batches with
  | nil =>
    intro st st2 hsc hlt hpi hb hmo hd hsp h
    obtain h2 : st = st2 := by simpa [runPF] using h
    rw [← h2]
    exact ⟨hb, hmo, hd, hsp⟩
  | cons batch rest ih =>
    intro st st2 hsc hlt hpi hb hmo hd hsp h
    rw [runPF] at h
    split at h
    next => simp at h
    next stm hstep =>
      rw [List.flatten_cons, ← List.append_assoc] at hlt hpi
      have hlt2 : List.Pairwise (fun a b : ScoreNote => a.time ≤ b.time)
          (st.live ++ batch) := (List.pairwise_append.mp hlt).1
      rw [pfFollowScore] at hstep
      split at hstep
      next => simp at hstep
      next ms ig pamo hfind =>
        obtain h3 : { pushAllPF st batch with
            «matches» := (pushAllPF st batch).matches ++ ms,
            ignored := (pushAllPF st batch).ignored ++ ig,
            matchOffsetsByPitch := applyPamo (pushAllPF st batch).matchOffsetsByPitch
              (pushAllPF st batch).matches.length pamo } = stm := by
          simpa using hstep
        have hplpairs : ∀ pr ∈ ((st.live ++ batch).enum.drop st.live.length),
            (st.live ++ batch)[pr.1]? = some pr.2 :=
          fun pr hpr => (mem_enum_drop _ _ _ hpr).1
        have hgepairs : ∀ pr ∈ ((st.live ++ batch).enum.drop st.live.length),
            st.live.length ≤ pr.1 :=
          fun pr hpr => (mem_enum_drop _ _ _ hpr).2
        have htimes : (((st.live ++ batch).enum.drop st.live.length).map
            (fun pr => pr.2.time)).Pairwise (· ≤ ·) := by
          have e1 : ((st.live ++ batch).enum.drop st.live.length).map
              (fun pr => pr.2.time) =
              ((st.live ++ batch).drop st.live.length).map (fun x => x.time) := by
            rw [show (fun pr : ℕ × ScoreNote => pr.2.time) =
              ((fun x : ScoreNote => x.time) ∘ Prod.snd) from rfl]
            rw [← List.map_map, List.map_drop, List.enum_map_snd]
          rw [e1, List.pairwise_map]
          exact hlt2.sublist (List.drop_sublist _ _)
        obtain ⟨hmsmem, hmspw⟩ := pfFindAux_mono (pushAllPF st batch) hsc _ 0
          ms ig pamo hfind hplpairs htimes
        obtain ⟨hplen, hpcorr⟩ := pfFindAux_pamo (pushAllPF st batch) _ 0
          ms ig pamo hfind
        have hbase : ∀ m ∈ ms, ∀ nm, (st.live ++ batch)[m.live_index]? = some nm →
            ∃ b0, pfNextUnmatchedOffset st nm.pitch = .ok b0 ∧
              b0 ≤ m.score_per_pitch_index := by
          intro m hm nm hnm
          obtain ⟨pr, hpr, hli, hfeq⟩ := hmsmem m hm
          have hnm2 : nm = pr.2 := by
            rw [hli] at hnm
            have := hplpairs pr hpr
            rw [this] at hnm
            simpa using hnm.symm
          obtain ⟨base, tm, hbm, htmm, hscanm, -⟩ :=
            pfFindNewMatch_details (pushAllPF st batch) pr.2.pitch pr.1 pr.2.time
              pr.2.velocity m hfeq
          obtain ⟨hcl, hidx⟩ := scan_result_cf (pushAllPF st batch) pr.2.pitch
            base tm _ hscanm
          refine ⟨base, ?_, by omega⟩
          rw [hnm2]
          exact hbm
        have hpamoelem : ∀ pr ∈ pamo, ∃ j m ln, j < ms.length ∧
            pr = (ln.pitch, j) ∧ ms[j]? = some m ∧
            (st.live ++ batch)[m.live_index]? = some ln := by
          intro pr hpr
          obtain ⟨j, hj⟩ := List.mem_iff_getElem?.mp hpr
          have hjlen : j < ms.length := by
            obtain ⟨hl, -⟩ := List.getElem?_eq_some.mp hj
            rw [hplen] at hl
            exact hl
          obtain ⟨m, ln, hmj, hlnj, hpj⟩ := hpcorr j hjlen
          rw [hj] at hpj
          obtain hpr2 : (ln.pitch, j) = pr := by simpa using hpj.symm
          replace hpr2 := hpr2.symm
          exact ⟨j, m, ln, hjlen, by simpa using hpr2, hmj, hlnj⟩
        have hpitchpamo : ∀ pr ∈ pamo, pr.1 < 128 := by
          intro pr hpr
          obtain ⟨j, m, ln, hjlen, hpr2, hmj, hlnj⟩ := hpamoelem pr hpr
          have hmem : ln ∈ st.live ++ batch := List.getElem?_mem hlnj
          have := hpi ln (List.mem_append_left _ hmem)
          rw [hpr2]
          exact this
        refine ih stm st2 ?_ ?_ ?_ ?_ ?_ ?_ ?_ h
        · rw [← h3]
          exact hsc
        · rw [← h3]
          simp only [pushAllPF]
          exact hlt
        · rw [← h3]
          simp only [pushAllPF]
          exact hpi
        · rw [← h3]
          intro m hm2
          simp only [pushAllPF] at hm2 ⊢
          rcases List.mem_append.mp hm2 with hm1 | hm2b
          · have := hb m hm1
            simp only [List.length_append]
            omega
          · obtain ⟨pr, hpr, hpr2, -⟩ := hmsmem m hm2b
            simp only [pushAllPF] at hpr
            obtain ⟨hget, -⟩ := mem_enum_drop _ _ _ hpr
            obtain ⟨hltp, -⟩ := List.getElem?_eq_some.mp hget
            rw [hpr2]
            exact hltp
        · rw [← h3]
          constructor
          · simp only [pushAllPF]
            rw [applyPamo_length]
            exact hmo.1
          · intro p mi hmi
            simp only [pushAllPF] at hmi ⊢
            rw [applyPamo_getD pamo st.matchOffsetsByPitch st.matches.length p
              (fun pr hpr => by rw [hmo.1]; exact hpitchpamo pr hpr)] at hmi
            simp only [List.length_append]
            rcases List.mem_append.mp hmi with hm1 | hm2b
            · have := hmo.2 p mi hm1
              omega
            · obtain ⟨pr, hprf, hpre⟩ := List.mem_map.mp hm2b
              have hprp : pr ∈ pamo := List.mem_of_mem_filter hprf
              obtain ⟨j, m, ln, hjlen, hpr2, -, -⟩ := hpamoelem pr hprp
              rw [← hpre, hpr2]
              simp only
              omega
        · rw [← h3]
          have hsnd : pamo.Pairwise (fun a b => a.2 < b.2) := by
            rw [List.pairwise_iff_getElem]
            intro j1 j2 hj1 hj2 hjlt
            rw [hplen] at hj1 hj2
            obtain ⟨m1, ln1, -, -, hp1⟩ := hpcorr j1 hj1
            obtain ⟨m2, ln2, -, -, hp2⟩ := hpcorr j2 hj2
            have e1 : pamo[j1] = (ln1.pitch, 0 + j1) := by
              have := @List.getElem?_eq_getElem _ pamo _ (by rw [hplen]; exact hj1)
              rw [this] at hp1
              simpa using hp1
            have e2 : pamo[j2] = (ln2.pitch, 0 + j2) := by
              have := @List.getElem?_eq_getElem _ pamo _ (by rw [hplen]; exact hj2)
              rw [this] at hp2
              simpa using hp2
            rw [e1, e2]
            simpa using hjlt
          have hmsidx : ∀ j, j < ms.length → ∀ mj, ms[j]? = some mj →
              ∀ nj, (st.live ++ batch)[mj.live_index]? = some nj →
              ((nj.pitch, j) : ℕ × ℕ) ∈ pamo := by
            intro j hj mj hmj nj hnj
            obtain ⟨m3, ln3, hm3, hln3, hp3⟩ := hpcorr j hj
            have hm3e : m3 = mj := by
              rw [hm3] at hmj
              simpa using hmj
            have hln3e : ln3 = nj := by
              rw [hm3e] at hln3
              have : (st.live ++ batch)[mj.live_index]? = some ln3 := hln3
              rw [this] at hnj
              simpa using hnj
            have := List.getElem?_mem hp3
            rw [hln3e] at this
            simpa using this
          intro p base2 hbz m2 hm2 n2 hn2 hp2
          simp only [pushAllPF] at hbz hm2 hn2 ⊢
          rcases (pfNextUnmatchedOffset_char _ p base2).mp hbz with
            ⟨hA, hb0⟩ | ⟨mi, m0, hA, hmi0, hb0⟩
          · -- the per-pitch list for p is empty after the batch
            simp only [pushAllPF] at hA
            rw [applyPamo_getD pamo st.matchOffsetsByPitch st.matches.length p
              (fun pr hpr => by rw [hmo.1]; exact hpitchpamo pr hpr),
              List.getLast?_eq_none_iff, List.append_eq_nil] at hA
            obtain ⟨hAold, hAnew⟩ := hA
            rcases List.mem_append.mp hm2 with hold | hnew
            · have hn2old : st.live[m2.live_index]? = some n2 := by
                rw [← @List.getElem?_append_left _ _ batch _ (hb m2 hold)]
                exact hn2
              have hst : pfNextUnmatchedOffset st p = .ok 0 :=
                (pfNextUnmatchedOffset_char st p 0).mpr
                  (Or.inl ⟨by rw [hAold]; rfl, rfl⟩)
              have := hd p 0 hst m2 hold n2 hn2old hp2
              omega
            · exfalso
              obtain ⟨j, hjlt, hje⟩ := List.mem_iff_getElem.mp hnew
              have hmemp : ((n2.pitch, j) : ℕ × ℕ) ∈ pamo :=
                hmsidx j hjlt m2 (by rw [List.getElem?_eq_getElem hjlt, hje]) n2 hn2
              have : ((n2.pitch, j) : ℕ × ℕ) ∈
                  pamo.filter (fun pr => pr.1 == p) :=
                List.mem_filter.mpr ⟨hmemp, by simpa using hp2⟩
              rw [List.map_eq_nil_iff] at hAnew
              rw [hAnew] at this
              simp at this
          · -- the per-pitch list for p ends in some registered match index
            simp only [pushAllPF] at hA hmi0
            rw [applyPamo_getD pamo st.matchOffsetsByPitch st.matches.length p
              (fun pr hpr => by rw [hmo.1]; exact hpitchpamo pr hpr)] at hA
            by_cases hnp : pamo.filter (fun pr => pr.1 == p) = []
            · -- no new match at pitch p in this batch
              rw [hnp] at hA
              simp only [List.map_nil, List.append_nil] at hA
              have hmilt : mi < st.matches.length :=
                hmo.2 p mi (List.mem_of_mem_getLast? hA)
              rw [List.getElem?_append_left hmilt] at hmi0
              have hst : pfNextUnmatchedOffset st p =
                  .ok (m0.score_per_pitch_index + 1) :=
                (pfNextUnmatchedOffset_char st p _).mpr
                  (Or.inr ⟨mi, m0, hA, hmi0, rfl⟩)
              rcases List.mem_append.mp hm2 with hold | hnew
              · have hn2old : st.live[m2.live_index]? = some n2 := by
                  rw [← @List.getElem?_append_left _ _ batch _ (hb m2 hold)]
                  exact hn2
                have := hd p _ hst m2 hold n2 hn2old hp2
                omega
              · exfalso
                obtain ⟨j, hjlt, hje⟩ := List.mem_iff_getElem.mp hnew
                have hmemp : ((n2.pitch, j) : ℕ × ℕ) ∈ pamo :=
                  hmsidx j hjlt m2 (by rw [List.getElem?_eq_getElem hjlt, hje]) n2 hn2
                have : ((n2.pitch, j) : ℕ × ℕ) ∈
                    pamo.filter (fun pr => pr.1 == p) :=
                  List.mem_filter.mpr ⟨hmemp, by simpa using hp2⟩
                rw [hnp] at this
                simp at this
            · -- the batch matched pitch p; the last registration dominates
              have hmapnp : (pamo.filter (fun pr => pr.1 == p)).map
                  (fun pr => st.matches.length + pr.2) ≠ [] := by
                simpa using hnp
              rw [List.getLast?_append_of_ne_nil _ hmapnp, List.getLast?_map] at hA
              cases hfl : (pamo.filter (fun pr => pr.1 == p)).getLast? with
              | none =>
                rw [List.getLast?_eq_none_iff] at hfl
                exact absurd hfl hnp
              | some prL =>
                rw [hfl] at hA
                obtain hmiL : st.matches.length + prL.2 = mi := by simpa using hA
                have hprLmem : prL ∈ pamo.filter (fun pr => pr.1 == p) :=
                  List.mem_of_mem_getLast? hfl
                have hprLp : prL.1 = p := by
                  have := (List.mem_filter.mp hprLmem).2
                  simpa using this
                have hprLpamo : prL ∈ pamo := List.mem_of_mem_filter hprLmem
                obtain ⟨jL, mL, lnL, hjL, hprLe, hmsL, hlnL⟩ :=
                  hpamoelem prL hprLpamo
                have hjL2 : prL.2 = jL := by rw [hprLe]
                rw [← hmiL, hjL2, List.getElem?_append_right (by omega),
                  Nat.add_sub_cancel_left, hmsL] at hmi0
                obtain hm0e : mL = m0 := by simpa using hmi0
                have hlnLp : lnL.pitch = p := by
                  have h9 : prL.1 = lnL.pitch := by rw [hprLe]
                  omega
                have hgoal : m2.score_per_pitch_index ≤
                    mL.score_per_pitch_index →
                    m2.score_per_pitch_index < base2 := by
                  rw [hb0, ← hm0e]
                  omega
                refine hgoal ?_
                rcases List.mem_append.mp hm2 with hold | hnew
                · have hn2old : st.live[m2.live_index]? = some n2 := by
                    rw [← @List.getElem?_append_left _ _ batch _ (hb m2 hold)]
                    exact hn2
                  obtain ⟨b0, hb0x, hb0le⟩ :=
                    hbase mL (List.getElem?_mem hmsL) lnL hlnL
                  have := hd p b0 (by rw [← hlnLp]; exact hb0x) m2 hold n2
                    hn2old hp2
                  omega
                · obtain ⟨j2, hj2lt, hj2e⟩ := List.mem_iff_getElem.mp hnew
                  have hmemf : ((n2.pitch, j2) : ℕ × ℕ) ∈
                      pamo.filter (fun pr => pr.1 == p) :=
                    List.mem_filter.mpr
                      ⟨hmsidx j2 hj2lt m2
                        (by rw [List.getElem?_eq_getElem hj2lt, hj2e]) n2 hn2,
                       by simpa using hp2⟩
                  rcases pairwise_getLast _ _
                      (hsnd.sublist (List.filter_sublist _)) prL hfl _ hmemf with
                    he | hr
                  · have hj2jL : j2 = jL := by
                      have h8 : ((n2.pitch, j2) : ℕ × ℕ).2 = prL.2 := by rw [he]
                      simp only [hjL2] at h8
                      simpa using h8
                    subst hj2jL
                    have hmLe : mL = m2 := by
                      rw [List.getElem?_eq_getElem hj2lt, hj2e] at hmsL
                      simpa using hmsL.symm
                    rw [hmLe]
                  · have hj2lt2 : j2 < jL := by
                      simp only [hjL2] at hr
                      simpa using hr
                    have hrel := (List.pairwise_iff_getElem.mp hmspw) j2 jL hj2lt
                      (by simpa using hjL) hj2lt2
                    have hjLlt : jL < ms.length := by simpa using hjL
                    have hmsLg : ms[jL] = mL := by
                      obtain ⟨hw9, he2⟩ := List.getElem?_eq_some.mp hmsL
                      exact he2
                    rw [hj2e, hmsLg] at hrel
                    exact hrel n2 lnL hn2 hlnL (by rw [hp2, hlnLp])
        · rw [← h3]
          unfold samePitchMono
          simp only [pushAllPF]
          rw [List.pairwise_append]
          refine ⟨?_, ?_, ?_⟩
          · refine List.Pairwise.imp_of_mem ?_ hsp
            intro a b2 ha hb2 hrel na nb hna hnb hpq
            refine hrel na nb ?_ ?_ hpq
            · rw [List.getElem?_append_left (hb a ha)] at hna
              exact hna
            · rw [List.getElem?_append_left (hb b2 hb2)] at hnb
              exact hnb
          · exact hmspw
          · intro a ha b2 hb2 na nb hna hnb hpq
            obtain ⟨b0, hb0, hb0le⟩ := hbase b2 hb2 nb hnb
            have hnaold : st.live[a.live_index]? = some na := by
              rw [List.getElem?_append_left (hb a ha)] at hna
              exact hna
            have := hd nb.pitch b0 hb0 a ha na hnaold hpq
            omega

/-- C5: for every run of the main-loop protocol (any sequence of
push-live/follow_score calls, batches of several notes allowed) on a score
sorted by time, with live timestamps non-decreasing and pitches below 128,
the strict matcher's match list is strictly increasing in both `live_index`
and `score_index`, and in the flex matcher the bucket offsets
(`score_per_pitch_index`) of the matches at any one pitch are monotone
non-decreasing in match order. -/
theorem matches_monotone
    (score : List ScoreNote) (batches : List (List ScoreNote))
    (hsc : List.Pairwise (fun a b : ScoreNote => a.time ≤ b.time) score)
    (hlt : List.Pairwise (fun a b : ScoreNote => a.time ≤ b.time) batches.flatten)
    (hpi : ∀ n ∈ batches.flatten, n.pitch < 128) :
    (∀ st2, runHP (initHP score) batches = .ok st2 → monoHP st2) ∧
    (∀ st2, runPF (initPF score) batches = .ok st2 → samePitchMono st2) := by
  constructor
  · intro st2 h
    refine (runHP_mono batches (initHP score) st2 ?_ ?_ h).2
    · intro m hm
      simp [initHP] at hm
    · exact List.Pairwise.nil
  · intro st2 h
    refine (runPF_mono batches (initPF score) st2 hsc ?_ ?_ ?_ ?_ ?_ ?_ h).2.2.2
    · simpa [initPF] using hlt
    · simpa [initPF] using hpi
    · intro m hm
      simp [initPF] at hm
    · refine ⟨by simp [initPF], ?_⟩
      intro p mi hmi
      have hrep : (List.replicate 128 ([] : List ℕ)).getD p [] = [] := by
        rcases Nat.lt_or_ge p 128 with hp | hp
        · simp only [List.getD_eq_getElem?_getD, List.getElem?_replicate, hp,
            if_true, Option.getD_some]
        · rw [List.getD_eq_default]
          simpa using hp
      simp only [initPF] at hmi
      rw [hrep] at hmi
      simp at hmi
    · intro p base hb m hm
      simp [initPF] at hm
    · exact List.Pairwise.nil

/-- Witness for C5: both matchers run to completion on a one-note live
batch against a one-note score, and the monotonicity conclusions hold for
those runs. -/
theorem matches_monotone_witness :
    (∃ stH, runHP (initHP [⟨1000, 60, 100⟩]) [[⟨5, 60, 100⟩]] = .ok stH) ∧
    (∃ stP, runPF (initPF [⟨1000, 60, 100⟩]) [[⟨5, 60, 100⟩]] = .ok stP) ∧
    (∀ st2, runHP (initHP [⟨1000, 60, 100⟩]) [[⟨5, 60, 100⟩]] = .ok st2 →
      monoHP st2) ∧
    (∀ st2, runPF (initPF [⟨1000, 60, 100⟩]) [[⟨5, 60, 100⟩]] = .ok st2 →
      samePitchMono st2) := by
  obtain ⟨hH, hP⟩ := matches_monotone [⟨1000, 60, 100⟩] [[⟨5, 60, 100⟩]]
    (by simp) (by simp) (by intro n hn; simp at hn; rw [hn]; norm_num)
  have h1 : runHP (initHP [⟨1000, 60, 100⟩]) [[⟨5, 60, 100⟩]] =
      .ok ⟨[⟨1000, 60, 100⟩], [⟨5, 60, 100⟩], [⟨0, 0, .fin 1, 100, 100⟩], []⟩ := by
    norm_num [runHP, initHP, pushAllHP, hpFollowScore, hpFindNewMatches, hpFindAux,
      hpStretchAtNewMatch, csub, get_stretch_factor, find_next_match_starting_at,
      List.enum, List.enumFrom, List.findIdx?]
  have h2 : runPF (initPF [⟨1000, 60, 100⟩]) [[⟨5, 60, 100⟩]] =
      .ok ⟨[⟨1000, 60, 100⟩], [⟨5, 60, 100⟩], [⟨0, 0, .fin 1, 100, 100⟩],
        (List.replicate 128 []).set 60 [0], []⟩ := by
    norm_num [runPF, initPF, pushAllPF, pfFollowScore, pfFindAux, pfFindNewMatch,
      pfNextUnmatchedOffset, pfLiveTimeMapped, pfStretchAtNewMatch, scanBucket,
      scoreByPitch, applyPamo, csub, get_stretch_factor, f32Recip, stretchE, adiff,
      List.enum, List.enumFrom, List.range, List.range.loop, List.filter]
  exact ⟨⟨_, h1⟩, ⟨_, h2⟩, hH, hP⟩
